import Mathlib

/-!
Verification of the cimba M/M/1 benchmark scripts
(src/benchmark/MM1_multi.py and src/benchmark/MM1_single.py).

The two Python scripts drive a discrete-event simulation of an M/M/1 queue
built on the simpy library: an arrival process deposits arrival timestamps
into a FIFO store, a service process withdraws them, holds for a service
duration and accumulates sojourn times, and a surrounding harness reduces
many trial results to a mean with a 95% confidence interval.

The scheduler, the FIFO store and the Python statistics functions live in
external libraries (simpy, statistics); they are modelled here from the
specification's description of their contracts (min-priority event dispatch
keyed by (time, priority, sequence), unbounded FIFO store with
suspend-on-empty gets, arithmetic mean and Bessel-corrected sample standard
deviation).  Everything written in the two benchmark files themselves
(arrival_process, service_process, run_trial, main's aggregation) is
translated directly.

Python floats are modelled as rationals (for the simulation core) or reals
(for the statistics, which take square roots); exceptions are modelled with
Except.  Randomness is modelled by a stream u : Nat -> Rat of raw positive
exponential samples consumed in draw order; random.expovariate(rate) scales
the next raw sample by 1/rate.  The fields putLog, getLog and dispatches of
the simulation state are proof instrumentation only: no embedded code reads
them.
-/

set_option maxHeartbeats 1000000

/-- Python runtime errors the embedded code can raise.  `invalidParameter` is
the error kind named by the specification's error-handling design (section 7);
it is included so statements about it can be made, but no embedded code ever
produces it. -/
inductive PyError where
  | zeroDivisionError
  | valueError
  | invalidParameter
  deriving DecidableEq, Repr

/-- The per-trial statistics dictionary of both scripts:
stats = \x7b'sum_tsys': 0.0, 'obj_cnt': 0\x7d. -/
structure Stats where
  sum_tsys : ℚ
  obj_cnt : ℕ
  deriving DecidableEq, Repr

/-- Identifies the suspended continuation a scheduled event resumes:
the two Initialize events, the arrival process resuming from its timeout or
from its store.put, the arrival process's termination event (which has no
callbacks), and the service process resuming from a succeeded store.get
(carrying the dequeued record) or from its service timeout. -/
inductive Resume where
  | initA
  | atimeout
  | aput
  | aend
  | initS
  | sget (item : ℚ)
  | stimeout
  deriving DecidableEq, Repr

/-- A scheduled event: target simulated time, priority (0 = URGENT for
process initialization, 1 = NORMAL for everything else) and a global
insertion sequence number used as the deterministic FIFO tie-break. -/
structure Ev where
  time : ℚ
  prio : ℕ
  seq : ℕ
  res : Resume
  deriving DecidableEq, Repr

/-- Suspension point of the arrival process generator: not yet initialized,
waiting on its inter-arrival timeout (with the number of loop iterations not
yet completed), waiting on its store.put event, or exited. -/
inductive AState where
  | notStarted
  | awaitTimeout (remaining : ℕ)
  | awaitPut (remaining : ℕ)
  | done
  deriving DecidableEq, Repr

/-- Suspension point of the service process generator: not yet initialized,
blocked on store.get, or waiting on its service timeout (remembering the
dequeued arrival timestamp). -/
inductive SState where
  | notStarted
  | awaitGet
  | awaitTimeout (arr : ℚ)
  deriving DecidableEq, Repr

/-- The whole simulation state of one trial: virtual clock, event queue,
store contents, the waiter flag of the store, both process states, the
statistics accumulator and the position in the random stream.  putLog,
getLog and dispatches are proof instrumentation (enqueue order, dequeue
order, number of dispatched events); no embedded code reads them. -/
structure SimState where
  now : ℚ
  seq : ℕ
  queue : List Ev
  items : List ℚ
  sWaiting : Bool
  astate : AState
  sstate : SState
  stats : Stats
  idx : ℕ
  putLog : List ℚ
  getLog : List ℚ
  dispatches : ℕ
  deriving DecidableEq, Repr

/-- Trial configuration: the three run_trial parameters plus the random
stream (the state of Python's global random module, abstracted as the
sequence of raw exponential samples its successive expovariate calls are
built from). -/
structure Config where
  n_objects : ℤ
  arr_rate : ℚ
  svc_rate : ℚ
  u : ℕ → ℚ

/-- Modelled from the spec: the scheduler's total order on pending events,
lexicographic on (time, priority, sequence number), so that simultaneous
events dispatch in FIFO order of scheduling (spec section 4.1). -/
def evLe (a b : Ev) : Bool :=
  decide (a.time < b.time) ||
    (decide (a.time = b.time) &&
      (decide (a.prio < b.prio) ||
        (decide (a.prio = b.prio) && decide (a.seq ≤ b.seq))))

/-- Extract a minimal element (under evLe) from e :: l, returning it together
with the remaining events. -/
def pickMin (e : Ev) (l : List Ev) : Ev × List Ev :=
  match l with
  | [] => (e, [])
  | f :: rest =>
      if evLe e f then
        let p := pickMin e rest
        (p.1, f :: p.2)
      else
        let p := pickMin f rest
        (p.1, e :: p.2)

/-- Modelled from the spec: scheduling one event at absolute time t with the
given priority, consuming the next sequence number (spec section 4.1). -/
def schedule (st : SimState) (t : ℚ) (prio : ℕ) (r : Resume) : SimState :=
  { st with queue := st.queue ++ [⟨t, prio, st.seq, r⟩], seq := st.seq + 1 }

/-- Modelled from the spec: env.timeout(delay) — a negative delay is a
programming error and fails immediately (ValueError in simpy); otherwise the
resumption is scheduled delay after the current time (spec sections 4.1
and 7). -/
def env_timeout (st : SimState) (delay : ℚ) (r : Resume) : Except PyError SimState :=
  if delay < 0 then .error .valueError
  else .ok (schedule st (st.now + delay) 1 r)

/-- Modelled from the spec: random.expovariate(rate) — the next raw
exponential sample scaled by 1/rate; Python raises ZeroDivisionError when
rate = 0 (float division by zero). -/
def expovariate (rate x : ℚ) : Except PyError ℚ :=
  if rate = 0 then .error .zeroDivisionError else .ok (x / rate)

/-- Modelled from the spec: store.get() — on an empty store the caller is
registered as a waiter and suspends; otherwise the oldest record is removed
and the caller's resumption (carrying that record) is scheduled at the
current time (spec section 4.2). -/
def storeGet (st : SimState) : SimState :=
  match st.items with
  | [] => { st with sWaiting := true, sstate := .awaitGet }
  | x :: rest =>
      schedule { st with items := rest, sWaiting := false, sstate := .awaitGet,
                          getLog := st.getLog ++ [x] } st.now 1 (.sget x)

/-- Modelled from the spec: the trigger-get callback that runs when a put
event is processed — if the consumer is waiting and a record is available,
the oldest record is removed and the waiter's resumption is scheduled at the
current time (spec section 4.2). -/
def triggerGet (st : SimState) : SimState :=
  if st.sWaiting then
    match st.items with
    | [] => st
    | x :: rest =>
        schedule { st with items := rest, sWaiting := false,
                            getLog := st.getLog ++ [x] } st.now 1 (.sget x)
  else st

/-- Modelled from the spec: store.put(v) — capacity is unbounded, so the
record is appended immediately and the put event (whose processing will run
the trigger-get callback and then resume the producer) is scheduled at the
current time (spec section 4.2). -/
def storePut (st : SimState) (v : ℚ) : SimState :=
  schedule { st with items := st.items ++ [v], putLog := st.putLog ++ [v] } st.now 1 .aput

/-- One scheduler step, generic in the dispatch routine: pop the minimal
pending event, advance the clock to its time, and run the resumed
continuation (spec section 4.1).  Returns none when no event is pending. -/
def stepWith (dispatch : Config → SimState → Resume → Except PyError SimState)
    (cfg : Config) (st : SimState) : Option (Except PyError SimState) :=
  match st.queue with
  | [] => none
  | e :: rest =>
      let p := pickMin e rest
      some (dispatch cfg
        { st with queue := p.2, now := p.1.time, dispatches := st.dispatches + 1 } p.1.res)

/-- Modelled from the spec: env.run() — repeatedly dispatch the earliest
pending event until none remains (spec section 4.1).  Fuel-indexed; the
callers supply fuel exceeding the total number of events of a trial, and the
quiescence theorems show the queue is in fact drained. -/
def runWith (dispatch : Config → SimState → Resume → Except PyError SimState)
    (cfg : Config) : ℕ → SimState → Except PyError SimState
  | 0, st => .ok st
  | fuel + 1, st =>
      match stepWith dispatch cfg st with
      | none => .ok st
      | some (.error e) => .error e
      | some (.ok st') => runWith dispatch cfg fuel st'

/-- The initial state built by run_trial: empty store, zeroed statistics, and
the two Initialize events (arrival process first, then service process) at
time 0 with URGENT priority. -/
def initState : SimState :=
  { now := 0, seq := 2,
    queue := [⟨0, 0, 0, .initA⟩, ⟨0, 0, 1, .initS⟩],
    items := [], sWaiting := false,
    astate := .notStarted, sstate := .notStarted,
    stats := ⟨0, 0⟩, idx := 0,
    putLog := [], getLog := [], dispatches := 0 }

/-- Projects the final state out of a completed run (initState on error);
used to state concrete facts about finished trials. -/
def getOk : Except PyError SimState → SimState
  | .ok st => st
  | .error _ => initState

namespace MM1_multi

def NUM_OBJECTS : ℤ := 1000000
def ARRIVAL_RATE : ℚ := 0.9
def SERVICE_RATE : ℚ := 1.0
def NUM_TRIALS : ℕ := 100

/-- arrival_process(env, store, n_limit, arrival_rate) of MM1_multi.py
(lines 12-16), as the three resumptions of its generator: at initialization
it draws the first inter-arrival interval and waits (or exits at once when
the loop bound is not positive); when its timeout fires it puts the current
simulated time into the store; when its put event is processed it either
draws the next interval and waits, or exits after the last iteration. -/
def arrival_process (cfg : Config) (st : SimState) : Resume → Except PyError SimState
  | .initA =>
      match cfg.n_objects.toNat with
      | 0 => .ok (schedule { st with astate := .done } st.now 1 .aend)
      | k + 1 =>
          let x := cfg.u st.idx
          match expovariate cfg.arr_rate x with
          | .error e => .error e
          | .ok t => env_timeout { st with idx := st.idx + 1,
                                            astate := .awaitTimeout (k + 1) } t .atimeout
  | .atimeout =>
      match st.astate with
      | .awaitTimeout r => .ok (storePut { st with astate := .awaitPut r } st.now)
      | _ => .ok st
  | .aput =>
      let st := triggerGet st
      match st.astate with
      | .awaitPut 0 => .ok (schedule { st with astate := .done } st.now 1 .aend)
      | .awaitPut 1 => .ok (schedule { st with astate := .done } st.now 1 .aend)
      | .awaitPut (k + 2) =>
          let x := cfg.u st.idx
          match expovariate cfg.arr_rate x with
          | .error e => .error e
          | .ok t => env_timeout { st with idx := st.idx + 1,
                                            astate := .awaitTimeout (k + 1) } t .atimeout
      | _ => .ok st
  | _ => .ok st

/-- service_process(env, store, service_rate, stats) of MM1_multi.py
(lines 18-24), as the three resumptions of its generator: at initialization
it issues its first store.get; when a get succeeds it draws a service
duration and waits; when its timeout fires it accumulates the sojourn time
env.now - arr_time, increments the completion count, and issues the next
store.get. -/
def service_process (cfg : Config) (st : SimState) : Resume → Except PyError SimState
  | .initS => .ok (storeGet st)
  | .sget item =>
      let x := cfg.u st.idx
      match expovariate cfg.svc_rate x with
      | .error e => .error e
      | .ok t => env_timeout { st with idx := st.idx + 1,
                                        sstate := .awaitTimeout item } t .stimeout
  | .stimeout =>
      match st.sstate with
      | .awaitTimeout arr =>
          .ok (storeGet { st with
            sstate := .awaitGet,
            stats := ⟨st.stats.sum_tsys + (st.now - arr), st.stats.obj_cnt + 1⟩ })
      | _ => .ok st
  | _ => .ok st

/-- Routes each resumed event to the generator it belongs to. -/
def dispatch (cfg : Config) (st : SimState) : Resume → Except PyError SimState
  | .initS => service_process cfg st .initS
  | .sget x => service_process cfg st (.sget x)
  | .stimeout => service_process cfg st .stimeout
  | r => arrival_process cfg st r

/-- run_trial(args) of MM1_multi.py up to env.run() (lines 26-33): build the
environment, store and statistics, spawn the two processes and run the
simulation to completion, returning the final simulation state.  The fuel
4*N + 4 exceeds the total number of events of a trial (shown to reach
quiescence in the theorems below). -/
def trial_state (args : ℤ × ℚ × ℚ) (u : ℕ → ℚ) : Except PyError SimState :=
  runWith dispatch ⟨args.1, args.2.1, args.2.2, u⟩ (4 * args.1.toNat + 4) initState

/-- run_trial(args) of MM1_multi.py (lines 26-35): after the run, return
stats['sum_tsys'] / stats['obj_cnt']; Python raises ZeroDivisionError when
obj_cnt = 0.  There is no guard and no sentinel value in the source. -/
def run_trial (args : ℤ × ℚ × ℚ) (u : ℕ → ℚ) : Except PyError ℚ :=
  match trial_state args u with
  | .error e => .error e
  | .ok st =>
      if st.stats.obj_cnt = 0 then .error .zeroDivisionError
      else .ok (st.stats.sum_tsys / (st.stats.obj_cnt : ℚ))

end MM1_multi

namespace MM1_single

def NUM_OBJECTS : ℤ := 1000000
def ARRIVAL_RATE : ℚ := 0.9
def SERVICE_RATE : ℚ := 1.0

/-- arrival_process(env, store, n_limit, arrival_rate) of MM1_single.py
(lines 11-15); the body is identical to the one in MM1_multi.py. -/
def arrival_process (cfg : Config) (st : SimState) : Resume → Except PyError SimState
  | .initA =>
      match cfg.n_objects.toNat with
      | 0 => .ok (schedule { st with astate := .done } st.now 1 .aend)
      | k + 1 =>
          let x := cfg.u st.idx
          match expovariate cfg.arr_rate x with
          | .error e => .error e
          | .ok t => env_timeout { st with idx := st.idx + 1,
                                            astate := .awaitTimeout (k + 1) } t .atimeout
  | .atimeout =>
      match st.astate with
      | .awaitTimeout r => .ok (storePut { st with astate := .awaitPut r } st.now)
      | _ => .ok st
  | .aput =>
      let st := triggerGet st
      match st.astate with
      | .awaitPut 0 => .ok (schedule { st with astate := .done } st.now 1 .aend)
      | .awaitPut 1 => .ok (schedule { st with astate := .done } st.now 1 .aend)
      | .awaitPut (k + 2) =>
          let x := cfg.u st.idx
          match expovariate cfg.arr_rate x with
          | .error e => .error e
          | .ok t => env_timeout { st with idx := st.idx + 1,
                                            astate := .awaitTimeout (k + 1) } t .atimeout
      | _ => .ok st
  | _ => .ok st

/-- service_process(env, store, service_rate, stats) of MM1_single.py
(lines 17-23); the body is identical to the one in MM1_multi.py. -/
def service_process (cfg : Config) (st : SimState) : Resume → Except PyError SimState
  | .initS => .ok (storeGet st)
  | .sget item =>
      let x := cfg.u st.idx
      match expovariate cfg.svc_rate x with
      | .error e => .error e
      | .ok t => env_timeout { st with idx := st.idx + 1,
                                        sstate := .awaitTimeout item } t .stimeout
  | .stimeout =>
      match st.sstate with
      | .awaitTimeout arr =>
          .ok (storeGet { st with
            sstate := .awaitGet,
            stats := ⟨st.stats.sum_tsys + (st.now - arr), st.stats.obj_cnt + 1⟩ })
      | _ => .ok st
  | _ => .ok st

/-- Routes each resumed event to the generator it belongs to. -/
def dispatch (cfg : Config) (st : SimState) : Resume → Except PyError SimState
  | .initS => service_process cfg st .initS
  | .sget x => service_process cfg st (.sget x)
  | .stimeout => service_process cfg st .stimeout
  | r => arrival_process cfg st r

/-- run_trial() of MM1_single.py up to env.run() (lines 25-31): identical to
the parallel variant's, except that the parameters are the module constants
NUM_OBJECTS, ARRIVAL_RATE and SERVICE_RATE. -/
def trial_state (u : ℕ → ℚ) : Except PyError SimState :=
  runWith dispatch ⟨NUM_OBJECTS, ARRIVAL_RATE, SERVICE_RATE, u⟩
    (4 * NUM_OBJECTS.toNat + 4) initState

/-- run_trial() of MM1_single.py (lines 25-33): after the run, return
stats['sum_tsys'] / stats['obj_cnt']; Python raises ZeroDivisionError when
obj_cnt = 0. -/
def run_trial (u : ℕ → ℚ) : Except PyError ℚ :=
  match trial_state u with
  | .error e => .error e
  | .ok st =>
      if st.stats.obj_cnt = 0 then .error .zeroDivisionError
      else .ok (st.stats.sum_tsys / (st.stats.obj_cnt : ℚ))

end MM1_single

/- The Batteries rational arithmetic operations are marked irreducible; for
concrete-input evaluations of the simulation (witnesses and
counterexamples) they must unfold definitionally. -/
attribute [local semireducible] Rat.add Rat.mul Rat.sub Rat.inv Rat.ofScientific

instance : DecidableEq (Except PyError ℚ) := fun a b =>
  match a, b with
  | .ok x, .ok y => decidable_of_iff (x = y) (by simp)
  | .error e, .error f => decidable_of_iff (e = f) (by simp)
  | .ok _, .error _ => .isFalse (by simp)
  | .error _, .ok _ => .isFalse (by simp)

/-- Claim C10: given the same parameters (N, lambda, mu) and the same random
stream state, the single-trial variant's run_trial and the parallel variant's
run_trial compute the same TrialResult: the two trial implementations are
extensionally equal functions. -/
theorem C10_single_multi_run_trial_equal (u : ℕ → ℚ) :
    MM1_single.run_trial u =
      MM1_multi.run_trial
        (MM1_single.NUM_OBJECTS, MM1_single.ARRIVAL_RATE, MM1_single.SERVICE_RATE) u := rfl

/-- Claim C1, counterexample: at N = 0 (a trial whose completed-customer
count is 0), run_trial does not return any value at all — in particular not a
degenerate sentinel value — but raises ZeroDivisionError at the unguarded
division sum / count on line 35. -/
theorem C1_counterexample :
    MM1_multi.run_trial ((0 : ℤ), (1 : ℚ), (1 : ℚ)) (fun _ => 1)
        = .error .zeroDivisionError ∧
    (MM1_multi.run_trial ((0 : ℤ), (1 : ℚ), (1 : ℚ)) (fun _ => 1)).isOk = false :=
  ⟨rfl, rfl⟩

/-- Claim C1 (amended): run_trial returns sum / count (the mean sojourn time)
when the completed-customer count is greater than 0, and raises
ZeroDivisionError when the count is 0; no sentinel value is ever returned. -/
theorem C1_run_trial_mean_or_zero_division (args : ℤ × ℚ × ℚ) (u : ℕ → ℚ)
    (st : SimState) (h : MM1_multi.trial_state args u = .ok st) :
    (st.stats.obj_cnt = 0 →
        MM1_multi.run_trial args u = .error .zeroDivisionError) ∧
    (st.stats.obj_cnt ≠ 0 →
        MM1_multi.run_trial args u
          = .ok (st.stats.sum_tsys / (st.stats.obj_cnt : ℚ))) := by
  unfold MM1_multi.run_trial
  rw [h]
  exact ⟨fun h0 => by simp [h0], fun h0 => by simp [h0]⟩

/-- Witness for C1: a completed one-customer trial, whose count is 1, returns
its mean sojourn time. -/
theorem C1_witness :
    MM1_multi.trial_state ((1 : ℤ), (1 : ℚ), (1 : ℚ)) (fun _ => 1)
        = .ok (getOk (MM1_multi.trial_state ((1 : ℤ), (1 : ℚ), (1 : ℚ)) (fun _ => 1))) ∧
    MM1_multi.run_trial ((1 : ℤ), (1 : ℚ), (1 : ℚ)) (fun _ => 1)
        = .ok ((getOk (MM1_multi.trial_state ((1 : ℤ), (1 : ℚ), (1 : ℚ)) (fun _ => 1))).stats.sum_tsys /
            ((getOk (MM1_multi.trial_state ((1 : ℤ), (1 : ℚ), (1 : ℚ)) (fun _ => 1))).stats.obj_cnt : ℚ)) :=
  ⟨rfl, (C1_run_trial_mean_or_zero_division ((1 : ℤ), (1 : ℚ), (1 : ℚ)) (fun _ => 1)
      (getOk (MM1_multi.trial_state ((1 : ℤ), (1 : ℚ), (1 : ℚ)) (fun _ => 1))) rfl).2
      (by decide)⟩

/-- Claim C3, counterexample: invoked with N = 0 (and valid rates), the
program does not fail with an InvalidParameter error before any simulation
work begins: it dispatches 3 scheduler events (the whole empty simulation)
and then fails with ZeroDivisionError. -/
theorem C3_counterexample :
    MM1_multi.run_trial ((0 : ℤ), (1 : ℚ), (1 : ℚ)) (fun _ => 1)
        ≠ .error .invalidParameter ∧
    (getOk (MM1_multi.trial_state ((0 : ℤ), (1 : ℚ), (1 : ℚ)) (fun _ => 1))).dispatches = 3 :=
  ⟨by decide, rfl⟩

/-- Claim C3 (amended): no parameter validation is performed anywhere.  With
N <= 0 the simulation itself runs to quiescence (3 events are dispatched:
both process initializations and the arrival process's termination event)
and run_trial then fails with ZeroDivisionError at the mean computation,
regardless of the rates; there is no InvalidParameter failure before
simulation work begins.  (Rates lambda <= 0 likewise fail only during the
simulation: expovariate(0) raises ZeroDivisionError at the first draw and a
negative rate produces a negative delay rejected by the scheduler with
ValueError.) -/
theorem C3_no_upfront_validation (args : ℤ × ℚ × ℚ) (u : ℕ → ℚ)
    (h : args.1 ≤ 0) :
    MM1_multi.run_trial args u = .error .zeroDivisionError ∧
    (getOk (MM1_multi.trial_state args u)).dispatches = 3 := by
  obtain ⟨n, a, s⟩ := args
  cases n with
  | ofNat k =>
      cases k with
      | zero => exact ⟨rfl, rfl⟩
      | succ m =>
          rw [Int.ofNat_eq_natCast] at h
          omega
  | negSucc m => exact ⟨rfl, rfl⟩

/-- Witness for C3's amended theorem at N = 0. -/
theorem C3_witness :
    ((0 : ℤ), (1 : ℚ), (1 : ℚ)).1 ≤ 0 ∧
    MM1_multi.run_trial ((0 : ℤ), (1 : ℚ), (1 : ℚ)) (fun _ => 1)
        = .error .zeroDivisionError ∧
    (getOk (MM1_multi.trial_state ((0 : ℤ), (1 : ℚ), (1 : ℚ)) (fun _ => 1))).dispatches = 3 :=
  ⟨by decide, C3_no_upfront_validation ((0 : ℤ), (1 : ℚ), (1 : ℚ)) (fun _ => 1) (by decide)⟩

/-- Modelled from the spec: a degenerate trial result — the spec (sections 3
and 9) treats any non-positive trial result as degenerate ("no customers
completed"), which is exactly what the source filter r > 0 discards. -/
def degenerate (r : ℝ) : Prop := r ≤ 0

noncomputable instance (r : ℝ) : Decidable (degenerate r) :=
  inferInstanceAs (Decidable (r ≤ 0))

/-- Modelled from the spec: Python statistics.mean(data) — the arithmetic
mean, the sum of the data divided by the number of data points. -/
noncomputable def pymean (l : List ℝ) : ℝ := l.sum / (l.length : ℝ)

/-- Modelled from the spec: Python statistics.stdev(data) — the sample
standard deviation with Bessel's correction, the square root of the sum of
squared deviations from the mean divided by n - 1. -/
noncomputable def pystdev (l : List ℝ) : ℝ :=
  Real.sqrt (((l.map (fun x => (x - pymean l) ^ 2)).sum) / ((l.length : ℝ) - 1))

/-- The observable outcome of main() of MM1_multi.py after trial collection:
either the one printed report line (lines 53-55) or no output at all (the
conditional on line 45 has no else branch). -/
inductive Output where
  | reportLine (mean_tsys : ℝ) (n : ℕ) (ci_l ci_u : ℝ) (expected : ℝ)
  | noOutput

namespace MM1_multi

/-- The harness's degenerate-result filter, main() of MM1_multi.py line 43:
valid_results = [r for r in results if r > 0]. -/
noncomputable def valid_results (results : List ℝ) : List ℝ :=
  results.filter (fun r => decide (0 < r))

/-- main() of MM1_multi.py, lines 43-55, from the point where the trial
results have been collected: filter the results, count them, and when more
than one valid result remains print the single report line carrying the
sample mean, the sample size, the 95% confidence interval
mean ± 1.96 * (stdev / sqrt n), and the analytical expectation
1/(SERVICE_RATE - ARRIVAL_RATE); otherwise produce no output. -/
noncomputable def main_output (results : List ℝ) : Output :=
  let valid := valid_results results
  let n := valid.length
  if 1 < n then
    let mean_tsys := pymean valid
    let sdev_tsys := pystdev valid
    let serr_tsys := sdev_tsys / Real.sqrt (n : ℝ)
    let ci_w := 1.96 * serr_tsys
    .reportLine mean_tsys n (mean_tsys - ci_w) (mean_tsys + ci_w)
      (1 / ((SERVICE_RATE : ℝ) - (ARRIVAL_RATE : ℝ)))
  else .noOutput

end MM1_multi

/-- Claim C4: the filtering step excludes exactly the degenerate results —
valid_results retains precisely the non-degenerate entries of the collected
list, so the sample count n used in the mean and standard deviation
computation equals the number of non-degenerate results. -/
theorem C4_filter_excludes_exactly_degenerate (results : List ℝ) :
    MM1_multi.valid_results results
        = results.filter (fun r => decide (¬ degenerate r)) ∧
    (MM1_multi.valid_results results).length
        = results.countP (fun r => decide (¬ degenerate r)) := by
  have hpq : MM1_multi.valid_results results
      = results.filter (fun r => decide (¬ degenerate r)) := by
    unfold MM1_multi.valid_results
    refine List.filter_congr ?_
    intro x _
    simp [degenerate, not_le]
  exact ⟨hpq, by rw [hpq, List.countP_eq_length_filter]⟩

/-- Claim C2, counterexample: with exactly one valid trial result the
harness does not surface any insufficient-data condition to the caller: it
produces no output whatsoever (while indeed emitting no confidence
interval). -/
theorem C2_counterexample :
    MM1_multi.main_output [(5 : ℝ)] = Output.noOutput := by
  have hv : MM1_multi.valid_results [(5 : ℝ)] = [5] := by
    norm_num [MM1_multi.valid_results, List.filter_cons, List.filter_nil]
  simp [MM1_multi.main_output, hv]

/-- Claim C2 (amended): with fewer than 2 valid trial results the harness
emits neither a confidence interval nor a point estimate, but it surfaces
nothing at all: the program silently produces no output (there is no
explicit insufficient-data report). -/
theorem C2_insufficient_data_is_silent (results : List ℝ)
    (h : (MM1_multi.valid_results results).length ≤ 1) :
    MM1_multi.main_output results = Output.noOutput := by
  have h2 : ¬ (1 < (MM1_multi.valid_results results).length) := by omega
  simp [MM1_multi.main_output, h2]

/-- Witness for C2's amended theorem: a singleton valid list produces no
output. -/
theorem C2_witness :
    (MM1_multi.valid_results [(7 : ℝ)]).length ≤ 1 ∧
    MM1_multi.main_output [(7 : ℝ)] = Output.noOutput := by
  have hv : MM1_multi.valid_results [(7 : ℝ)] = [7] := by
    norm_num [MM1_multi.valid_results, List.filter_cons, List.filter_nil]
  have hlen : (MM1_multi.valid_results [(7 : ℝ)]).length ≤ 1 := by rw [hv]; norm_num
  exact ⟨hlen, C2_insufficient_data_is_silent [(7 : ℝ)] hlen⟩

/-- Claim C5: with at least 2 valid results the harness reports the sample
mean Σx/n and the 95% confidence interval mean ± 1.96 * (s/√n) — the
standard error being s/√n — where s is the Bessel-corrected sample standard
deviation: s ≥ 0 and s² * (n-1) = Σ(x - mean)², together with the
analytical expectation. -/
theorem C5_aggregate_formulas (results valid : List ℝ)
    (hv : valid = MM1_multi.valid_results results) (h : 2 ≤ valid.length) :
    MM1_multi.main_output results
        = Output.reportLine (valid.sum / (valid.length : ℝ)) valid.length
            (valid.sum / (valid.length : ℝ)
              - 1.96 * (pystdev valid / Real.sqrt (valid.length : ℝ)))
            (valid.sum / (valid.length : ℝ)
              + 1.96 * (pystdev valid / Real.sqrt (valid.length : ℝ)))
            (1 / ((MM1_multi.SERVICE_RATE : ℝ) - (MM1_multi.ARRIVAL_RATE : ℝ))) ∧
    0 ≤ pystdev valid ∧
    (pystdev valid) ^ 2 * ((valid.length : ℝ) - 1)
        = (valid.map (fun x => (x - valid.sum / (valid.length : ℝ)) ^ 2)).sum := by
  subst hv
  set valid := MM1_multi.valid_results results with hvdef
  have h1 : 1 < valid.length := by omega
  have hsq : (0 : ℝ) ≤ (valid.map (fun x => (x - pymean valid) ^ 2)).sum := by
    apply List.sum_nonneg
    intro x hx
    obtain ⟨y, _, rfl⟩ := List.mem_map.mp hx
    positivity
  have hden : (0 : ℝ) < (valid.length : ℝ) - 1 := by
    have : (2 : ℝ) ≤ (valid.length : ℝ) := by exact_mod_cast h
    linarith
  refine ⟨?_, Real.sqrt_nonneg _, ?_⟩
  · simp only [MM1_multi.main_output, if_pos h1]
    rfl
  · unfold pystdev
    rw [Real.sq_sqrt (div_nonneg hsq (le_of_lt hden))]
    rw [div_mul_cancel₀ _ (ne_of_gt hden)]
    rfl

/-- Witness for C5: for the valid results [1, 3] the mean is 2, the sample
standard deviation is √2, the standard error is √2/√2 = 1, and the reported
confidence interval is (2 - 1.96, 2 + 1.96). -/
theorem C5_witness :
    ([(1 : ℝ), 3] = MM1_multi.valid_results [(1 : ℝ), 3]) ∧
    2 ≤ ([(1 : ℝ), 3] : List ℝ).length ∧
    MM1_multi.main_output [(1 : ℝ), 3]
        = Output.reportLine 2 2 (2 - 1.96) (2 + 1.96) 10 := by
  have hv : ([(1 : ℝ), 3] : List ℝ) = MM1_multi.valid_results [(1 : ℝ), 3] := by
    norm_num [MM1_multi.valid_results, List.filter_cons, List.filter_nil]
  have h2 : 2 ≤ ([(1 : ℝ), 3] : List ℝ).length := by norm_num
  obtain ⟨hrep, hnn, hsq⟩ := C5_aggregate_formulas [(1 : ℝ), 3] [(1 : ℝ), 3] hv h2
  have hmean : (([(1 : ℝ), 3] : List ℝ).sum / (([(1 : ℝ), 3] : List ℝ).length : ℝ)) = 2 := by
    norm_num
  have hsdev : pystdev [(1 : ℝ), 3] = Real.sqrt 2 := by
    unfold pystdev pymean
    norm_num
  have hserr : pystdev [(1 : ℝ), 3] / Real.sqrt ((([(1 : ℝ), 3] : List ℝ).length : ℝ)) = 1 := by
    rw [hsdev]
    norm_num [div_self (ne_of_gt (Real.sqrt_pos.mpr (show (0:ℝ) < 2 by norm_num)))]
  have hexp : (1 : ℝ) / ((MM1_multi.SERVICE_RATE : ℝ) - (MM1_multi.ARRIVAL_RATE : ℝ)) = 10 := by
    norm_num [MM1_multi.SERVICE_RATE, MM1_multi.ARRIVAL_RATE]
  refine ⟨hv, h2, ?_⟩
  rw [hrep, hmean, hserr, hexp]
  norm_num

/-- Claim C9: the aggregate statistics are invariant under permutation of
the collected trial results — reducing a permuted list yields the identical
mean, standard deviation, standard error and 95% confidence interval. -/
theorem C9_permutation_invariant (l1 l2 : List ℝ) (h : l1.Perm l2) :
    MM1_multi.main_output l1 = MM1_multi.main_output l2 := by
  have hf : (MM1_multi.valid_results l1).Perm (MM1_multi.valid_results l2) :=
    h.filter _
  have hlen : (MM1_multi.valid_results l1).length = (MM1_multi.valid_results l2).length :=
    hf.length_eq
  have hsum : (MM1_multi.valid_results l1).sum = (MM1_multi.valid_results l2).sum :=
    hf.sum_eq
  have hmean : pymean (MM1_multi.valid_results l1) = pymean (MM1_multi.valid_results l2) := by
    unfold pymean
    rw [hlen, hsum]
  have hsdev : pystdev (MM1_multi.valid_results l1) = pystdev (MM1_multi.valid_results l2) := by
    unfold pystdev
    rw [hlen, hmean, (hf.map _).sum_eq]
  simp only [MM1_multi.main_output]
  rw [hlen, hmean, hsdev]

/-- Witness for C9: swapping the two entries of [1, 3] leaves the harness
output unchanged. -/
theorem C9_witness :
    (([(1 : ℝ), 3] : List ℝ).Perm [3, 1]) ∧
    MM1_multi.main_output [(1 : ℝ), 3] = MM1_multi.main_output [(3 : ℝ), 1] :=
  ⟨List.Perm.swap 3 1 [], C9_permutation_invariant [(1 : ℝ), 3] [(3 : ℝ), 1] (List.Perm.swap 3 1 [])⟩

/-- True for events that resume the arrival process. -/
def Resume.isA : Resume → Bool
  | .initA | .atimeout | .aput | .aend => true
  | _ => false

/-- True for events that resume the service process. -/
def Resume.isS : Resume → Bool
  | .initS | .sget _ | .stimeout => true
  | _ => false

/-- The pending events of the arrival process. -/
def aEvents (st : SimState) : List Ev := st.queue.filter (fun e => e.res.isA)

/-- The pending events of the service process. -/
def sEvents (st : SimState) : List Ev := st.queue.filter (fun e => e.res.isS)

theorem evLe_refl (a : Ev) : evLe a a = true := by
  simp [evLe]

theorem evLe_total (a b : Ev) : evLe a b = true ∨ evLe b a = true := by
  simp only [evLe, Bool.or_eq_true, Bool.and_eq_true, decide_eq_true_eq]
  rcases lt_trichotomy a.time b.time with h | h | h
  · exact Or.inl (Or.inl h)
  · rcases lt_trichotomy a.prio b.prio with h2 | h2 | h2
    · exact Or.inl (Or.inr ⟨h, Or.inl h2⟩)
    · rcases Nat.le_total a.seq b.seq with h3 | h3
      · exact Or.inl (Or.inr ⟨h, Or.inr ⟨h2, h3⟩⟩)
      · exact Or.inr (Or.inr ⟨h.symm, Or.inr ⟨h2.symm, h3⟩⟩)
    · exact Or.inr (Or.inr ⟨h.symm, Or.inl h2⟩)
  · exact Or.inr (Or.inl h)

theorem evLe_trans {a b c : Ev} (h1 : evLe a b = true) (h2 : evLe b c = true) :
    evLe a c = true := by
  simp only [evLe, Bool.or_eq_true, Bool.and_eq_true, decide_eq_true_eq] at h1 h2 ⊢
  rcases h1 with h1 | ⟨h1t, h1r⟩
  · rcases h2 with h2 | ⟨h2t, _⟩
    · exact Or.inl (h1.trans h2)
    · exact Or.inl (h2t ▸ h1)
  · rcases h2 with h2 | ⟨h2t, h2r⟩
    · exact Or.inl (h1t ▸ h2)
    · refine Or.inr ⟨h1t.trans h2t, ?_⟩
      rcases h1r with h1r | ⟨h1p, h1s⟩
      · rcases h2r with h2r | ⟨h2p, _⟩
        · exact Or.inl (h1r.trans h2r)
        · exact Or.inl (h2p ▸ h1r)
      · rcases h2r with h2r | ⟨h2p, h2s⟩
        · exact Or.inl (h1p ▸ h2r)
        · exact Or.inr ⟨h1p.trans h2p, h1s.trans h2s⟩

theorem evLe_time {a b : Ev} (h : evLe a b = true) : a.time ≤ b.time := by
  simp only [evLe, Bool.or_eq_true, Bool.and_eq_true, decide_eq_true_eq] at h
  rcases h with h | ⟨h, _⟩
  · exact le_of_lt h
  · exact le_of_eq h

theorem pickMin_perm (e : Ev) (l : List Ev) :
    ((pickMin e l).1 :: (pickMin e l).2).Perm (e :: l) := by
  induction l generalizing e with
  | nil => simp [pickMin]
  | cons f rest ih =>
      unfold pickMin
      by_cases h : evLe e f = true
      · rw [if_pos h]
        exact (List.Perm.swap f (pickMin e rest).1 (pickMin e rest).2).trans
          (((ih e).cons f).trans (List.Perm.swap e f rest))
      · rw [if_neg h]
        exact (List.Perm.swap e (pickMin f rest).1 (pickMin f rest).2).trans
          ((ih f).cons e)

theorem pickMin_le (e : Ev) (l : List Ev) :
    evLe (pickMin e l).1 e = true ∧ ∀ f ∈ l, evLe (pickMin e l).1 f = true := by
  induction l generalizing e with
  | nil => exact ⟨evLe_refl e, by simp⟩
  | cons g rest ih =>
      unfold pickMin
      by_cases h : evLe e g = true
      · rw [if_pos h]
        obtain ⟨ih1, ih2⟩ := ih e
        refine ⟨ih1, ?_⟩
        intro f hf
        rcases List.mem_cons.mp hf with rfl | hf
        · exact evLe_trans ih1 h
        · exact ih2 f hf
      · rw [if_neg h]
        obtain ⟨ih1, ih2⟩ := ih g
        have hge : evLe g e = true := by
          rcases evLe_total e g with h' | h'
          · exact absurd h' h
          · exact h'
        refine ⟨evLe_trans ih1 hge, ?_⟩
        intro f hf
        rcases List.mem_cons.mp hf with rfl | hf
        · exact ih1
        · exact ih2 f hf

theorem pickMin_min (e : Ev) (l : List Ev) :
    ∀ f ∈ (pickMin e l).2, evLe (pickMin e l).1 f = true := by
  intro f hf
  have hmem : f ∈ e :: l :=
    (pickMin_perm e l).mem_iff.mp (List.mem_cons_of_mem _ hf)
  rcases List.mem_cons.mp hmem with rfl | hmem
  · exact (pickMin_le f l).1
  · exact (pickMin_le e l).2 f hmem

theorem pickMin_fst_mem (e : Ev) (l : List Ev) : (pickMin e l).1 ∈ e :: l :=
  (pickMin_perm e l).mem_iff.mp (List.mem_cons_self _ _)

namespace MM1_multi

/-- Environment validity for one trial: both rates are positive and every
raw exponential sample is positive (exponential samples are positive with
probability 1). -/
def GoodCfg (cfg : Config) : Prop :=
  0 < cfg.arr_rate ∧ 0 < cfg.svc_rate ∧ ∀ k, 0 < cfg.u k

/-- Where the arrival process stands: not yet initialized, waiting on its
inter-arrival timeout, waiting on its put event, or exited (with its
termination event still pending, or fully retired); each phase ties the
pending arrival event to the number of puts performed so far. -/
def APhase (cfg : Config) (st : SimState) : Prop :=
  (∃ ev, aEvents st = [ev] ∧ ev.res = .initA ∧ st.astate = .notStarted ∧
      st.putLog = []) ∨
  (∃ ev r, aEvents st = [ev] ∧ ev.res = .atimeout ∧ st.astate = .awaitTimeout r ∧
      1 ≤ r ∧ st.putLog.length + r = cfg.n_objects.toNat) ∨
  (∃ ev r, aEvents st = [ev] ∧ ev.res = .aput ∧ st.astate = .awaitPut r ∧
      1 ≤ r ∧ st.putLog.length + r = cfg.n_objects.toNat + 1) ∨
  (∃ ev, aEvents st = [ev] ∧ ev.res = .aend ∧ st.astate = .done ∧
      st.putLog.length = cfg.n_objects.toNat) ∨
  (aEvents st = [] ∧ st.astate = .done ∧ st.putLog.length = cfg.n_objects.toNat)

/-- Where the service process stands: not yet initialized, registered as the
store's waiter, resuming from a succeeded get, or waiting on its service
timeout; each phase ties the pending service event, the waiter flag and the
completed-customer count to the number of dequeued records. -/
def SPhase (st : SimState) : Prop :=
  (∃ ev, sEvents st = [ev] ∧ ev.res = .initS ∧ st.sWaiting = false ∧
      st.sstate = .notStarted ∧ st.getLog = [] ∧ st.stats.obj_cnt = 0) ∨
  (st.sWaiting = true ∧ sEvents st = [] ∧ st.sstate = .awaitGet ∧
      st.stats.obj_cnt = st.getLog.length ∧
      (st.items = [] ∨ ∃ r, st.astate = .awaitPut r)) ∨
  (∃ ev x, sEvents st = [ev] ∧ ev.res = .sget x ∧ st.sWaiting = false ∧
      st.sstate = .awaitGet ∧ st.stats.obj_cnt + 1 = st.getLog.length) ∨
  (∃ ev arr, sEvents st = [ev] ∧ ev.res = .stimeout ∧ st.sWaiting = false ∧
      st.sstate = .awaitTimeout arr ∧ arr < ev.time ∧
      st.stats.obj_cnt + 1 = st.getLog.length)

/-- The reachability invariant of a trial: virtual time bounds every pending
event and every recorded timestamp, the dequeue log is a prefix of the
enqueue log, the store holds exactly the enqueued-but-not-dequeued records
in order, both processes are in a consistent phase, and the sojourn-time sum
is non-negative (positive once a customer completed). -/
structure Inv (cfg : Config) (st : SimState) : Prop where
  timeQ : ∀ ev ∈ st.queue, st.now ≤ ev.time
  putLe : ∀ x ∈ st.putLog, x ≤ st.now
  sgetLe : ∀ ev ∈ st.queue, ∀ x, ev.res = .sget x → x ≤ st.now
  fifo : st.getLog = st.putLog.take st.getLog.length
  itemsEq : st.items = st.putLog.drop st.getLog.length
  aph : APhase cfg st
  sph : SPhase st
  sumNN : 0 ≤ st.stats.sum_tsys
  sumPos : 0 < st.stats.obj_cnt → 0 < st.stats.sum_tsys

/-- Remaining dispatches chargeable to the arrival process. -/
def phiA (cfg : Config) (st : SimState) : ℕ :=
  match st.astate with
  | .notStarted => 2 * cfg.n_objects.toNat + 2
  | .awaitTimeout r => 2 * r + 1
  | .awaitPut r => 2 * r
  | .done => (aEvents st).length

/-- Remaining dispatches chargeable to the service process. -/
def phiS (cfg : Config) (st : SimState) : ℕ :=
  match st.sstate with
  | .notStarted => 2 * cfg.n_objects.toNat + 1
  | .awaitGet => 2 * (cfg.n_objects.toNat - st.stats.obj_cnt)
  | .awaitTimeout _ => 2 * (cfg.n_objects.toNat - st.stats.obj_cnt) - 1

/-- Total remaining dispatches: decreases by exactly one per scheduler step. -/
def phi (cfg : Config) (st : SimState) : ℕ := phiA cfg st + phiS cfg st

theorem getLen_le_putLen {cfg : Config} {st : SimState} (hinv : Inv cfg st) :
    st.getLog.length ≤ st.putLog.length := by
  have h := congrArg List.length hinv.fifo
  rw [List.length_take] at h
  omega

/-- SPhase only looks at the service events, the waiter flag, the service
state, the dequeue log, the count, and the emptiness-or-pending-put
disjunct; it transfers along any step that preserves those. -/
theorem SPhase_congr {st st' : SimState} (h : SPhase st)
    (hE : sEvents st' = sEvents st)
    (hW : st'.sWaiting = st.sWaiting) (hS : st'.sstate = st.sstate)
    (hG : st'.getLog = st.getLog) (hC : st'.stats.obj_cnt = st.stats.obj_cnt)
    (hIA : st.sWaiting = true → (st.items = [] ∨ ∃ r, st.astate = .awaitPut r) →
        (st'.items = [] ∨ ∃ r, st'.astate = .awaitPut r)) : SPhase st' := by
  unfold SPhase at h ⊢
  rw [hE, hW, hS, hG, hC]
  rcases h with h | ⟨h1, h2, h3, h4, h5⟩ | h | h
  · exact Or.inl h
  · exact Or.inr (Or.inl ⟨h1, h2, h3, h4, hIA h1 h5⟩)
  · exact Or.inr (Or.inr (Or.inl h))
  · exact Or.inr (Or.inr (Or.inr h))

/-- APhase only looks at the arrival events, the arrival state and the
enqueue log. -/
theorem APhase_congr {cfg : Config} {st st' : SimState} (h : APhase cfg st)
    (hE : aEvents st' = aEvents st) (hA : st'.astate = st.astate)
    (hP : st'.putLog = st.putLog) : APhase cfg st' := by
  unfold APhase at h ⊢
  rw [hE, hA, hP]
  exact h

end MM1_multi

namespace MM1_multi

theorem perm_eq_small {α : Type} {l l2 : List α} (h : l.Perm l2)
    (hl : l2.length ≤ 1) : l = l2 := by
  match l2, hl with
  | [], _ => exact List.perm_nil.mp h
  | [a], _ => exact List.perm_singleton.mp h

theorem cons_perm_singleton {α : Type} {a b : α} {l : List α}
    (h : (a :: l).Perm [b]) : a = b ∧ l = [] := by
  have hnil : l = [] := by
    have hl := h.length_eq
    simp only [List.length_cons, List.length_singleton, List.length_nil] at hl
    exact List.length_eq_zero.mp (by omega)
  subst hnil
  have := List.perm_singleton.mp h
  exact ⟨by injection this, rfl⟩

theorem sEvents_small {st : SimState} (h : SPhase st) : (sEvents st).length ≤ 1 := by
  rcases h with ⟨ev, h1, _⟩ | ⟨_, h1, _⟩ | ⟨ev, x, h1, _⟩ | ⟨ev, arr, h1, _⟩ <;>
    simp [h1]

theorem aEvents_small {cfg : Config} {st : SimState} (h : APhase cfg st) :
    (aEvents st).length ≤ 1 := by
  rcases h with ⟨ev, h1, _⟩ | ⟨ev, r, h1, _⟩ | ⟨ev, r, h1, _⟩ | ⟨ev, h1, _⟩ | ⟨h1, _⟩ <;>
    simp [h1]

theorem filter_append_singleton_pos {α : Type} {p : α → Bool} {l : List α} {a : α}
    (h : p a = true) : (l ++ [a]).filter p = l.filter p ++ [a] := by
  simp [List.filter_append, List.filter_cons, h]

theorem filter_append_singleton_neg {α : Type} {p : α → Bool} {l : List α} {a : α}
    (h : p a = false) : (l ++ [a]).filter p = l.filter p := by
  simp [List.filter_append, List.filter_cons, h]

theorem putLen_le_N {cfg : Config} {st : SimState} (h : APhase cfg st) :
    st.putLog.length ≤ cfg.n_objects.toNat := by
  rcases h with ⟨ev, _, _, _, hp⟩ | ⟨ev, r, _, _, _, h1, h2⟩ |
    ⟨ev, r, _, _, _, h1, h2⟩ | ⟨ev, _, _, _, h2⟩ | ⟨_, _, h2⟩
  · simp [hp]
  · omega
  · omega
  · omega
  · omega

theorem item_head_le_now {cfg : Config} {st : SimState} (hinv : Inv cfg st)
    {x : ℚ} {irest : List ℚ} (hIt : st.items = x :: irest) : x ≤ st.now := by
  have hx : x ∈ st.items := by
    rw [hIt]
    exact List.mem_cons_self _ _
  rw [hinv.itemsEq] at hx
  exact hinv.putLe x (List.mem_of_mem_drop hx)

theorem fifo_pop {cfg : Config} {st : SimState} (hinv : Inv cfg st)
    {x : ℚ} {irest : List ℚ} (hIt : st.items = x :: irest) :
    st.getLog ++ [x] = st.putLog.take (st.getLog.length + 1) ∧
    irest = st.putLog.drop (st.getLog.length + 1) := by
  have hdrop : st.putLog.drop st.getLog.length = x :: irest :=
    hinv.itemsEq.symm.trans hIt
  have hget : st.putLog[st.getLog.length]? = some x := by
    have h := List.getElem?_drop st.putLog st.getLog.length 0
    rw [hdrop] at h
    simpa using h.symm
  constructor
  · rw [List.take_succ, hget, ← hinv.fifo]
    rfl
  · have h2 : (st.putLog.drop st.getLog.length).tail = irest := by
      rw [hdrop]
      rfl
    rw [List.tail_drop] at h2
    exact h2.symm

theorem step_inv (cfg : Config) (hcfg : GoodCfg cfg) (st : SimState)
    (hinv : Inv cfg st) (e0 : Ev) (l0 : List Ev) (hq : st.queue = e0 :: l0) :
    ∃ st', stepWith dispatch cfg st = some (.ok st') ∧ Inv cfg st' ∧
      phi cfg st' + 1 = phi cfg st := by
  obtain ⟨hra, hrs, hu⟩ := hcfg
  obtain ⟨m, rest, hmr⟩ : ∃ m rest, pickMin e0 l0 = (m, rest) := ⟨_, _, rfl⟩
  have hperm0 : (m :: rest).Perm st.queue := by
    rw [hq]
    have h := pickMin_perm e0 l0
    rw [hmr] at h
    exact h
  have hmin : ∀ f ∈ rest, evLe m f = true := by
    have h := pickMin_min e0 l0
    rw [hmr] at h
    exact h
  have hmmem : m ∈ st.queue := hperm0.mem_iff.mp (List.mem_cons_self _ _)
  have hnow : st.now ≤ m.time := hinv.timeQ m hmmem
  have hrestT : ∀ f ∈ rest, m.time ≤ f.time := fun f hf => evLe_time (hmin f hf)
  have hrestsub : ∀ f ∈ rest, f ∈ st.queue := fun f hf =>
    hperm0.mem_iff.mp (List.mem_cons_of_mem _ hf)
  have hpermA : ((m :: rest).filter (fun e => e.res.isA)).Perm (aEvents st) :=
    hperm0.filter _
  have hpermS : ((m :: rest).filter (fun e => e.res.isS)).Perm (sEvents st) :=
    hperm0.filter _
  have hstep : stepWith dispatch cfg st
      = some (dispatch cfg
          ({ st with queue := rest, now := m.time,
                     dispatches := st.dispatches + 1 }) m.res) := by
    simp [stepWith, hq, hmr]
  cases hres : m.res with
  | initA =>
      have hmA : (fun e => e.res.isA) m = true := by simp [hres, Resume.isA]
      have hconsA : (m :: rest).filter (fun e => e.res.isA)
          = m :: rest.filter (fun e => e.res.isA) := by simp [List.filter_cons, hmA]
      have hmS : (fun e => e.res.isS) m = false := by simp [hres, Resume.isS]
      have hconsS : (m :: rest).filter (fun e => e.res.isS)
          = rest.filter (fun e => e.res.isS) := by simp [List.filter_cons, hmS]
      have hSrest : rest.filter (fun e => e.res.isS) = sEvents st :=
        perm_eq_small (hconsS ▸ hpermS) (sEvents_small hinv.sph)
      rcases hinv.aph with ⟨ev, hA, hevres, hast, hputnil⟩ |
        ⟨ev, r, hA, hevres, hast, hr1, hrN⟩ | ⟨ev, r, hA, hevres, hast, hr1, hrN⟩ |
        ⟨ev, hA, hevres, hast, hPN⟩ | ⟨hA, hast, hPN⟩
      case _ =>
        rw [hA, hconsA] at hpermA
        obtain ⟨hmev, hrestA⟩ := cons_perm_singleton hpermA
        have hIA : st.sWaiting = true →
            (st.items = [] ∨ ∃ r, st.astate = .awaitPut r) →
            (st.items = [] ∨ ∃ r, AState.done = .awaitPut r) := by
          intro _ h
          rcases h with h | ⟨r, hr⟩
          · exact Or.inl h
          · rw [hast] at hr
            simp at hr
        rcases hN : cfg.n_objects.toNat with _ | k
        · refine ⟨{ st with queue := rest ++ [⟨m.time, 1, st.seq, .aend⟩],
                            seq := st.seq + 1, now := m.time,
                            dispatches := st.dispatches + 1, astate := .done }, ?_, ?_, ?_⟩
          · rw [hstep, hres]
            simp [dispatch, arrival_process, hN, schedule]
          · refine ⟨?_, ?_, ?_, hinv.fifo, hinv.itemsEq, ?_, ?_, hinv.sumNN, hinv.sumPos⟩
            · intro f hf
              rcases List.mem_append.mp hf with hf | hf
              · exact hrestT f hf
              · rw [List.mem_singleton.mp hf]
            · exact fun x hx => (hinv.putLe x hx).trans hnow
            · intro f hf x hfx
              rcases List.mem_append.mp hf with hf | hf
              · exact (hinv.sgetLe f (hrestsub f hf) x hfx).trans hnow
              · rw [List.mem_singleton.mp hf] at hfx
                simp at hfx
            · refine Or.inr (Or.inr (Or.inr (Or.inl
                ⟨⟨m.time, 1, st.seq, .aend⟩, ?_, rfl, rfl, ?_⟩)))
              · show (rest ++ [(⟨m.time, 1, st.seq, .aend⟩ : Ev)]).filter
                    (fun e => e.res.isA) = _
                rw [filter_append_singleton_pos rfl, hrestA]
                rfl
              · simp [hputnil, hN]
            · refine SPhase_congr hinv.sph ?_ rfl rfl rfl rfl (by exact hIA)
              show (rest ++ [(⟨m.time, 1, st.seq, .aend⟩ : Ev)]).filter
                  (fun e => e.res.isS) = sEvents st
              rw [filter_append_singleton_neg rfl, hSrest]
          · have haE : (rest ++ [(⟨m.time, 1, st.seq, .aend⟩ : Ev)]).filter
                (fun e => e.res.isA) = [⟨m.time, 1, st.seq, .aend⟩] := by
              rw [filter_append_singleton_pos rfl, hrestA]
              rfl
            simp only [phi, phiA, phiS, hast, hN, aEvents]
            simp only [haE]
            simp
            omega
        · have hxpos : 0 < cfg.u st.idx := hu _
          have hdel : 0 < cfg.u st.idx / cfg.arr_rate := div_pos hxpos hra
          refine ⟨{ st with queue := rest ++
                      [⟨m.time + cfg.u st.idx / cfg.arr_rate, 1, st.seq, .atimeout⟩],
                            seq := st.seq + 1, now := m.time,
                            dispatches := st.dispatches + 1, idx := st.idx + 1,
                            astate := .awaitTimeout (k + 1) }, ?_, ?_, ?_⟩
          · rw [hstep, hres]
            simp [dispatch, arrival_process, hN, expovariate, env_timeout, schedule,
              ne_of_gt hra, not_lt.mpr hdel.le]
          · refine ⟨?_, ?_, ?_, hinv.fifo, hinv.itemsEq, ?_, ?_, hinv.sumNN, hinv.sumPos⟩
            · intro f hf
              rcases List.mem_append.mp hf with hf | hf
              · exact hrestT f hf
              · rw [List.mem_singleton.mp hf]
                exact le_add_of_nonneg_right hdel.le
            · exact fun x hx => (hinv.putLe x hx).trans hnow
            · intro f hf x hfx
              rcases List.mem_append.mp hf with hf | hf
              · exact (hinv.sgetLe f (hrestsub f hf) x hfx).trans hnow
              · rw [List.mem_singleton.mp hf] at hfx
                simp at hfx
            · refine Or.inr (Or.inl
                ⟨⟨m.time + cfg.u st.idx / cfg.arr_rate, 1, st.seq, .atimeout⟩, k + 1,
                  ?_, rfl, rfl, by omega, ?_⟩)
              · show (rest ++ [(⟨m.time + cfg.u st.idx / cfg.arr_rate, 1, st.seq,
                    .atimeout⟩ : Ev)]).filter (fun e => e.res.isA) = _
                rw [filter_append_singleton_pos rfl, hrestA]
                rfl
              · simp [hputnil, hN]
            · refine SPhase_congr hinv.sph ?_ rfl rfl rfl rfl
                (fun _ h => h.elim Or.inl (fun hr => by
                  obtain ⟨r, hr⟩ := hr
                  rw [hast] at hr
                  simp at hr))
              show (rest ++ [(⟨m.time + cfg.u st.idx / cfg.arr_rate, 1, st.seq,
                  .atimeout⟩ : Ev)]).filter (fun e => e.res.isS) = sEvents st
              rw [filter_append_singleton_neg rfl, hSrest]
          · simp only [phi, phiA, phiS, hast, hN]
            omega
      case _ =>
        rw [hA, hconsA] at hpermA
        obtain ⟨hmev, hrestA⟩ := cons_perm_singleton hpermA
        rw [← hmev] at hevres
        simp [hres] at hevres
      case _ =>
        rw [hA, hconsA] at hpermA
        obtain ⟨hmev, hrestA⟩ := cons_perm_singleton hpermA
        rw [← hmev] at hevres
        simp [hres] at hevres
      case _ =>
        rw [hA, hconsA] at hpermA
        obtain ⟨hmev, hrestA⟩ := cons_perm_singleton hpermA
        rw [← hmev] at hevres
        simp [hres] at hevres
      case _ =>
        rw [hA, hconsA] at hpermA
        have := hpermA.length_eq
        simp at this
  | atimeout =>
      have hmA : (fun e => e.res.isA) m = true := by simp [hres, Resume.isA]
      have hconsA : (m :: rest).filter (fun e => e.res.isA)
          = m :: rest.filter (fun e => e.res.isA) := by simp [List.filter_cons, hmA]
      have hmS : (fun e => e.res.isS) m = false := by simp [hres, Resume.isS]
      have hconsS : (m :: rest).filter (fun e => e.res.isS)
          = rest.filter (fun e => e.res.isS) := by simp [List.filter_cons, hmS]
      have hSrest : rest.filter (fun e => e.res.isS) = sEvents st :=
        perm_eq_small (hconsS ▸ hpermS) (sEvents_small hinv.sph)
      rcases hinv.aph with ⟨ev, hA, hevres, hast, hputnil⟩ |
        ⟨ev, r, hA, hevres, hast, hr1, hrN⟩ | ⟨ev, r, hA, hevres, hast, hr1, hrN⟩ |
        ⟨ev, hA, hevres, hast, hPN⟩ | ⟨hA, hast, hPN⟩
      case _ =>
        rw [hA, hconsA] at hpermA
        obtain ⟨hmev, hrestA⟩ := cons_perm_singleton hpermA
        rw [← hmev] at hevres
        simp [hres] at hevres
      case _ =>
        rw [hA, hconsA] at hpermA
        obtain ⟨hmev, hrestA⟩ := cons_perm_singleton hpermA
        refine ⟨{ st with queue := rest ++ [⟨m.time, 1, st.seq, .aput⟩],
                          seq := st.seq + 1, now := m.time,
                          dispatches := st.dispatches + 1, astate := .awaitPut r,
                          items := st.items ++ [m.time],
                          putLog := st.putLog ++ [m.time] }, ?_, ?_, ?_⟩
        · rw [hstep, hres]
          simp [dispatch, arrival_process, hast, storePut, schedule]
        · refine ⟨?_, ?_, ?_, ?_, ?_, ?_, ?_, hinv.sumNN, hinv.sumPos⟩
          · intro f hf
            rcases List.mem_append.mp hf with hf | hf
            · exact hrestT f hf
            · rw [List.mem_singleton.mp hf]
          · intro y hy
            rcases List.mem_append.mp hy with hy | hy
            · exact (hinv.putLe y hy).trans hnow
            · rw [List.mem_singleton.mp hy]
          · intro f hf y hfy
            rcases List.mem_append.mp hf with hf | hf
            · exact (hinv.sgetLe f (hrestsub f hf) y hfy).trans hnow
            · rw [List.mem_singleton.mp hf] at hfy
              simp at hfy
          · show st.getLog = (st.putLog ++ [m.time]).take st.getLog.length
            rw [List.take_append_of_le_length (getLen_le_putLen hinv)]
            exact hinv.fifo
          · show st.items ++ [m.time] = (st.putLog ++ [m.time]).drop st.getLog.length
            rw [List.drop_append_of_le_length (getLen_le_putLen hinv), hinv.itemsEq]
          · refine Or.inr (Or.inr (Or.inl
              ⟨⟨m.time, 1, st.seq, .aput⟩, r, ?_, rfl, rfl, hr1, ?_⟩))
            · show (rest ++ [(⟨m.time, 1, st.seq, .aput⟩ : Ev)]).filter
                  (fun e => e.res.isA) = _
              rw [filter_append_singleton_pos rfl, hrestA]
              rfl
            · show (st.putLog ++ [m.time]).length + r = cfg.n_objects.toNat + 1
              rw [List.length_append]
              simp
              omega
          · refine SPhase_congr hinv.sph ?_ rfl rfl rfl rfl (fun _ _ => Or.inr ⟨r, rfl⟩)
            show (rest ++ [(⟨m.time, 1, st.seq, .aput⟩ : Ev)]).filter
                (fun e => e.res.isS) = sEvents st
            rw [filter_append_singleton_neg rfl, hSrest]
        · simp only [phi, phiA, phiS, hast]
          omega
      case _ =>
        rw [hA, hconsA] at hpermA
        obtain ⟨hmev, hrestA⟩ := cons_perm_singleton hpermA
        rw [← hmev] at hevres
        simp [hres] at hevres
      case _ =>
        rw [hA, hconsA] at hpermA
        obtain ⟨hmev, hrestA⟩ := cons_perm_singleton hpermA
        rw [← hmev] at hevres
        simp [hres] at hevres
      case _ =>
        rw [hA, hconsA] at hpermA
        have := hpermA.length_eq
        simp at this
  | aput =>
      have hmA : (fun e => e.res.isA) m = true := by simp [hres, Resume.isA]
      have hconsA : (m :: rest).filter (fun e => e.res.isA)
          = m :: rest.filter (fun e => e.res.isA) := by simp [List.filter_cons, hmA]
      have hmS : (fun e => e.res.isS) m = false := by simp [hres, Resume.isS]
      have hconsS : (m :: rest).filter (fun e => e.res.isS)
          = rest.filter (fun e => e.res.isS) := by simp [List.filter_cons, hmS]
      have hSrest : rest.filter (fun e => e.res.isS) = sEvents st :=
        perm_eq_small (hconsS ▸ hpermS) (sEvents_small hinv.sph)
      rcases hinv.aph with ⟨ev, hA, hevres, hast, hputnil⟩ |
        ⟨ev, r, hA, hevres, hast, hr1, hrN⟩ | ⟨ev, r, hA, hevres, hast, hr1, hrN⟩ |
        ⟨ev, hA, hevres, hast, hPN⟩ | ⟨hA, hast, hPN⟩
      case _ =>
        rw [hA, hconsA] at hpermA
        obtain ⟨hmev, hrestA⟩ := cons_perm_singleton hpermA
        rw [← hmev] at hevres
        simp [hres] at hevres
      case _ =>
        rw [hA, hconsA] at hpermA
        obtain ⟨hmev, hrestA⟩ := cons_perm_singleton hpermA
        rw [← hmev] at hevres
        simp [hres] at hevres
      case _ =>
        rw [hA, hconsA] at hpermA
        obtain ⟨hmev, hrestA⟩ := cons_perm_singleton hpermA
        rcases r with _ | k
        · exact absurd hr1 (by omega)
        rcases hswc : st.sWaiting with _ | _
        · rcases k with _ | j
          · refine ⟨{ st with queue := rest ++ [⟨m.time, 1, st.seq, .aend⟩],
                              seq := st.seq + 1, now := m.time,
                              dispatches := st.dispatches + 1, astate := .done },
                      ?_, ?_, ?_⟩
            · rw [hstep, hres]
              simp [dispatch, arrival_process, triggerGet, hswc, hast, schedule]
            · refine ⟨?_, ?_, ?_, hinv.fifo, hinv.itemsEq, ?_, ?_, hinv.sumNN,
                hinv.sumPos⟩
              · intro f hf
                rcases List.mem_append.mp hf with hf | hf
                · exact hrestT f hf
                · rw [List.mem_singleton.mp hf]
              · exact fun y hy => (hinv.putLe y hy).trans hnow
              · intro f hf y hfy
                rcases List.mem_append.mp hf with hf | hf
                · exact (hinv.sgetLe f (hrestsub f hf) y hfy).trans hnow
                · rw [List.mem_singleton.mp hf] at hfy
                  simp at hfy
              · refine Or.inr (Or.inr (Or.inr (Or.inl
                  ⟨⟨m.time, 1, st.seq, .aend⟩, ?_, rfl, rfl, ?_⟩)))
                · show (rest ++ [(⟨m.time, 1, st.seq, .aend⟩ : Ev)]).filter
                      (fun e => e.res.isA) = _
                  rw [filter_append_singleton_pos rfl, hrestA]
                  rfl
                · show st.putLog.length = cfg.n_objects.toNat
                  omega
              · refine SPhase_congr hinv.sph ?_ rfl rfl rfl rfl
                  (fun htrue _ => absurd (hswc ▸ htrue) (by simp))
                show (rest ++ [(⟨m.time, 1, st.seq, .aend⟩ : Ev)]).filter
                    (fun e => e.res.isS) = sEvents st
                rw [filter_append_singleton_neg rfl, hSrest]
            · have haE : (rest ++ [(⟨m.time, 1, st.seq, .aend⟩ : Ev)]).filter
                  (fun e => e.res.isA) = [⟨m.time, 1, st.seq, .aend⟩] := by
                rw [filter_append_singleton_pos rfl, hrestA]
                rfl
              have h1 : phiA cfg { st with queue := rest ++ [⟨m.time, 1, st.seq, .aend⟩],
                                           seq := st.seq + 1, now := m.time,
                                           dispatches := st.dispatches + 1,
                                           astate := AState.done } = 1 := by
                simp [phiA, aEvents, haE]
              have h2 : phiA cfg st = 2 := by
                simp [phiA, hast]
              have h3 : phiS cfg { st with queue := rest ++ [⟨m.time, 1, st.seq, .aend⟩],
                                           seq := st.seq + 1, now := m.time,
                                           dispatches := st.dispatches + 1,
                                           astate := AState.done } = phiS cfg st := rfl
              simp only [phi, h1, h2, h3]
              omega
          · have hdel : 0 < cfg.u st.idx / cfg.arr_rate := div_pos (hu _) hra
            refine ⟨{ st with queue := rest ++
                        [⟨m.time + cfg.u st.idx / cfg.arr_rate, 1, st.seq, .atimeout⟩],
                              seq := st.seq + 1, now := m.time,
                              dispatches := st.dispatches + 1, idx := st.idx + 1,
                              astate := .awaitTimeout (j + 1) }, ?_, ?_, ?_⟩
            · rw [hstep, hres]
              simp [dispatch, arrival_process, triggerGet, hswc, hast, expovariate,
                env_timeout, schedule, ne_of_gt hra, not_lt.mpr hdel.le]
            · refine ⟨?_, ?_, ?_, hinv.fifo, hinv.itemsEq, ?_, ?_, hinv.sumNN,
                hinv.sumPos⟩
              · intro f hf
                rcases List.mem_append.mp hf with hf | hf
                · exact hrestT f hf
                · rw [List.mem_singleton.mp hf]
                  exact le_add_of_nonneg_right hdel.le
              · exact fun y hy => (hinv.putLe y hy).trans hnow
              · intro f hf y hfy
                rcases List.mem_append.mp hf with hf | hf
                · exact (hinv.sgetLe f (hrestsub f hf) y hfy).trans hnow
                · rw [List.mem_singleton.mp hf] at hfy
                  simp at hfy
              · refine Or.inr (Or.inl
                  ⟨⟨m.time + cfg.u st.idx / cfg.arr_rate, 1, st.seq, .atimeout⟩,
                    j + 1, ?_, rfl, rfl, by omega, ?_⟩)
                · show (rest ++ [(⟨m.time + cfg.u st.idx / cfg.arr_rate, 1, st.seq,
                      .atimeout⟩ : Ev)]).filter (fun e => e.res.isA) = _
                  rw [filter_append_singleton_pos rfl, hrestA]
                  rfl
                · show st.putLog.length + (j + 1) = cfg.n_objects.toNat
                  omega
              · refine SPhase_congr hinv.sph ?_ rfl rfl rfl rfl
                  (fun htrue _ => absurd (hswc ▸ htrue) (by simp))
                show (rest ++ [(⟨m.time + cfg.u st.idx / cfg.arr_rate, 1, st.seq,
                    .atimeout⟩ : Ev)]).filter (fun e => e.res.isS) = sEvents st
                rw [filter_append_singleton_neg rfl, hSrest]
            · simp only [phi, phiA, phiS, hast]
              omega
        · rcases hIt : st.items with _ | ⟨x, irest⟩
          · rcases k with _ | j
            · refine ⟨{ st with queue := rest ++ [⟨m.time, 1, st.seq, .aend⟩],
                                seq := st.seq + 1, now := m.time,
                                dispatches := st.dispatches + 1, astate := .done },
                        ?_, ?_, ?_⟩
              · rw [hstep, hres]
                simp [dispatch, arrival_process, triggerGet, hswc, hIt, hast, schedule]
              · refine ⟨?_, ?_, ?_, hinv.fifo, hinv.itemsEq, ?_, ?_, hinv.sumNN,
                  hinv.sumPos⟩
                · intro f hf
                  rcases List.mem_append.mp hf with hf | hf
                  · exact hrestT f hf
                  · rw [List.mem_singleton.mp hf]
                · exact fun y hy => (hinv.putLe y hy).trans hnow
                · intro f hf y hfy
                  rcases List.mem_append.mp hf with hf | hf
                  · exact (hinv.sgetLe f (hrestsub f hf) y hfy).trans hnow
                  · rw [List.mem_singleton.mp hf] at hfy
                    simp at hfy
                · refine Or.inr (Or.inr (Or.inr (Or.inl
                    ⟨⟨m.time, 1, st.seq, .aend⟩, ?_, rfl, rfl, ?_⟩)))
                  · show (rest ++ [(⟨m.time, 1, st.seq, .aend⟩ : Ev)]).filter
                        (fun e => e.res.isA) = _
                    rw [filter_append_singleton_pos rfl, hrestA]
                    rfl
                  · show st.putLog.length = cfg.n_objects.toNat
                    omega
                · refine SPhase_congr hinv.sph ?_ rfl rfl rfl rfl
                    (fun _ _ => Or.inl hIt)
                  show (rest ++ [(⟨m.time, 1, st.seq, .aend⟩ : Ev)]).filter
                      (fun e => e.res.isS) = sEvents st
                  rw [filter_append_singleton_neg rfl, hSrest]
              · have haE : (rest ++ [(⟨m.time, 1, st.seq, .aend⟩ : Ev)]).filter
                    (fun e => e.res.isA) = [⟨m.time, 1, st.seq, .aend⟩] := by
                  rw [filter_append_singleton_pos rfl, hrestA]
                  rfl
                have h1 : phiA cfg { st with queue := rest ++ [⟨m.time, 1, st.seq, .aend⟩],
                                             seq := st.seq + 1, now := m.time,
                                             dispatches := st.dispatches + 1,
                                             astate := AState.done } = 1 := by
                  simp [phiA, aEvents, haE]
                have h2 : phiA cfg st = 2 := by
                  simp [phiA, hast]
                have h3 : phiS cfg { st with queue := rest ++ [⟨m.time, 1, st.seq, .aend⟩],
                                             seq := st.seq + 1, now := m.time,
                                             dispatches := st.dispatches + 1,
                                             astate := AState.done } = phiS cfg st := rfl
                simp only [phi, h1, h2, h3]
                omega
            · have hdel : 0 < cfg.u st.idx / cfg.arr_rate := div_pos (hu _) hra
              refine ⟨{ st with queue := rest ++
                          [⟨m.time + cfg.u st.idx / cfg.arr_rate, 1, st.seq, .atimeout⟩],
                                seq := st.seq + 1, now := m.time,
                                dispatches := st.dispatches + 1, idx := st.idx + 1,
                                astate := .awaitTimeout (j + 1) }, ?_, ?_, ?_⟩
              · rw [hstep, hres]
                simp [dispatch, arrival_process, triggerGet, hswc, hIt, hast,
                  expovariate, env_timeout, schedule, ne_of_gt hra, not_lt.mpr hdel.le]
              · refine ⟨?_, ?_, ?_, hinv.fifo, hinv.itemsEq, ?_, ?_, hinv.sumNN,
                  hinv.sumPos⟩
                · intro f hf
                  rcases List.mem_append.mp hf with hf | hf
                  · exact hrestT f hf
                  · rw [List.mem_singleton.mp hf]
                    exact le_add_of_nonneg_right hdel.le
                · exact fun y hy => (hinv.putLe y hy).trans hnow
                · intro f hf y hfy
                  rcases List.mem_append.mp hf with hf | hf
                  · exact (hinv.sgetLe f (hrestsub f hf) y hfy).trans hnow
                  · rw [List.mem_singleton.mp hf] at hfy
                    simp at hfy
                · refine Or.inr (Or.inl
                    ⟨⟨m.time + cfg.u st.idx / cfg.arr_rate, 1, st.seq, .atimeout⟩,
                      j + 1, ?_, rfl, rfl, by omega, ?_⟩)
                  · show (rest ++ [(⟨m.time + cfg.u st.idx / cfg.arr_rate, 1, st.seq,
                        .atimeout⟩ : Ev)]).filter (fun e => e.res.isA) = _
                    rw [filter_append_singleton_pos rfl, hrestA]
                    rfl
                  · show st.putLog.length + (j + 1) = cfg.n_objects.toNat
                    omega
                · refine SPhase_congr hinv.sph ?_ rfl rfl rfl rfl
                    (fun _ _ => Or.inl hIt)
                  show (rest ++ [(⟨m.time + cfg.u st.idx / cfg.arr_rate, 1, st.seq,
                      .atimeout⟩ : Ev)]).filter (fun e => e.res.isS) = sEvents st
                  rw [filter_append_singleton_neg rfl, hSrest]
              · simp only [phi, phiA, phiS, hast]
                omega
          · rcases hinv.sph with ⟨ev2, hS1, hevres2, hsw, hsst, hG, hC⟩ |
              ⟨hsw, hS1, hsst, hC, hID⟩ | ⟨ev2, x', hS1, hevres2, hsw, hsst, hC⟩ |
              ⟨ev2, arr, hS1, hevres2, hsw, hsst, harr, hC⟩
            case _ =>
              rw [hswc] at hsw
              simp at hsw
            case _ =>
              rw [hS1] at hSrest
              rcases k with _ | j
              · refine ⟨{ st with queue := rest ++ [⟨m.time, 1, st.seq, .sget x⟩,
                              ⟨m.time, 1, st.seq + 1, .aend⟩],
                                  seq := st.seq + 1 + 1, now := m.time,
                                  dispatches := st.dispatches + 1, items := irest,
                                  sWaiting := false, getLog := st.getLog ++ [x],
                                  astate := .done }, ?_, ?_, ?_⟩
                · rw [hstep, hres]
                  simp [dispatch, arrival_process, triggerGet, hswc, hIt, hast, schedule]
                · refine ⟨?_, ?_, ?_, ?_, ?_, ?_, ?_, hinv.sumNN, hinv.sumPos⟩
                  · intro f hf
                    rcases List.mem_append.mp hf with hf | hf
                    · exact hrestT f hf
                    · rcases List.mem_cons.mp hf with rfl | hf
                      · exact le_refl _
                      · rw [List.mem_singleton.mp hf]
                  · exact fun y hy => (hinv.putLe y hy).trans hnow
                  · intro f hf y hfy
                    rcases List.mem_append.mp hf with hf | hf
                    · exact (hinv.sgetLe f (hrestsub f hf) y hfy).trans hnow
                    · rcases List.mem_cons.mp hf with rfl | hf
                      · simp at hfy
                        subst hfy
                        exact (item_head_le_now hinv hIt).trans hnow
                      · rw [List.mem_singleton.mp hf] at hfy
                        simp at hfy
                  · show st.getLog ++ [x] = st.putLog.take (st.getLog ++ [x]).length
                    rw [List.length_append, List.length_singleton]
                    exact (fifo_pop hinv hIt).1
                  · show irest = st.putLog.drop (st.getLog ++ [x]).length
                    rw [List.length_append, List.length_singleton]
                    exact (fifo_pop hinv hIt).2
                  · refine Or.inr (Or.inr (Or.inr (Or.inl
                      ⟨⟨m.time, 1, st.seq + 1, .aend⟩, ?_, rfl, rfl, ?_⟩)))
                    · show (rest ++ [(⟨m.time, 1, st.seq, .sget x⟩ : Ev),
                          ⟨m.time, 1, st.seq + 1, .aend⟩]).filter
                          (fun e => e.res.isA) = _
                      rw [List.filter_append, hrestA]
                      rfl
                    · show st.putLog.length = cfg.n_objects.toNat
                      omega
                  · refine Or.inr (Or.inr (Or.inl ⟨⟨m.time, 1, st.seq, .sget x⟩, x,
                      ?_, rfl, rfl, hsst, ?_⟩))
                    · show (rest ++ [(⟨m.time, 1, st.seq, .sget x⟩ : Ev),
                          ⟨m.time, 1, st.seq + 1, .aend⟩]).filter
                          (fun e => e.res.isS) = _
                      rw [List.filter_append, hSrest]
                      rfl
                    · show st.stats.obj_cnt + 1 = (st.getLog ++ [x]).length
                      rw [List.length_append, List.length_singleton]
                      omega
                · have haE : (rest ++ [(⟨m.time, 1, st.seq, .sget x⟩ : Ev),
                      ⟨m.time, 1, st.seq + 1, .aend⟩]).filter (fun e => e.res.isA)
                      = [⟨m.time, 1, st.seq + 1, .aend⟩] := by
                    rw [List.filter_append, hrestA]
                    rfl
                  have h1 : phiA cfg { st with queue := rest ++
                              [⟨m.time, 1, st.seq, .sget x⟩,
                               ⟨m.time, 1, st.seq + 1, .aend⟩],
                                               seq := st.seq + 1 + 1, now := m.time,
                                               dispatches := st.dispatches + 1,
                                               items := irest, sWaiting := false,
                                               getLog := st.getLog ++ [x],
                                               astate := AState.done } = 1 := by
                    simp [phiA, aEvents, haE]
                  have h2 : phiA cfg st = 2 := by
                    simp [phiA, hast]
                  have h3 : phiS cfg { st with queue := rest ++
                              [⟨m.time, 1, st.seq, .sget x⟩,
                               ⟨m.time, 1, st.seq + 1, .aend⟩],
                                               seq := st.seq + 1 + 1, now := m.time,
                                               dispatches := st.dispatches + 1,
                                               items := irest, sWaiting := false,
                                               getLog := st.getLog ++ [x],
                                               astate := AState.done } = phiS cfg st := rfl
                  simp only [phi, h1, h2, h3]
                  omega
              · have hdel : 0 < cfg.u st.idx / cfg.arr_rate := div_pos (hu _) hra
                refine ⟨{ st with queue := rest ++ [⟨m.time, 1, st.seq, .sget x⟩,
                              ⟨m.time + cfg.u st.idx / cfg.arr_rate, 1, st.seq + 1,
                               .atimeout⟩],
                                  seq := st.seq + 1 + 1, now := m.time,
                                  dispatches := st.dispatches + 1, items := irest,
                                  sWaiting := false, getLog := st.getLog ++ [x],
                                  idx := st.idx + 1,
                                  astate := .awaitTimeout (j + 1) }, ?_, ?_, ?_⟩
                · rw [hstep, hres]
                  simp [dispatch, arrival_process, triggerGet, hswc, hIt, hast,
                    expovariate, env_timeout, schedule, ne_of_gt hra,
                    not_lt.mpr hdel.le]
                · refine ⟨?_, ?_, ?_, ?_, ?_, ?_, ?_, hinv.sumNN, hinv.sumPos⟩
                  · intro f hf
                    rcases List.mem_append.mp hf with hf | hf
                    · exact hrestT f hf
                    · rcases List.mem_cons.mp hf with rfl | hf
                      · exact le_refl _
                      · rw [List.mem_singleton.mp hf]
                        exact le_add_of_nonneg_right hdel.le
                  · exact fun y hy => (hinv.putLe y hy).trans hnow
                  · intro f hf y hfy
                    rcases List.mem_append.mp hf with hf | hf
                    · exact (hinv.sgetLe f (hrestsub f hf) y hfy).trans hnow
                    · rcases List.mem_cons.mp hf with rfl | hf
                      · simp at hfy
                        subst hfy
                        exact (item_head_le_now hinv hIt).trans hnow
                      · rw [List.mem_singleton.mp hf] at hfy
                        simp at hfy
                  · show st.getLog ++ [x] = st.putLog.take (st.getLog ++ [x]).length
                    rw [List.length_append, List.length_singleton]
                    exact (fifo_pop hinv hIt).1
                  · show irest = st.putLog.drop (st.getLog ++ [x]).length
                    rw [List.length_append, List.length_singleton]
                    exact (fifo_pop hinv hIt).2
                  · refine Or.inr (Or.inl
                      ⟨⟨m.time + cfg.u st.idx / cfg.arr_rate, 1, st.seq + 1,
                        .atimeout⟩, j + 1, ?_, rfl, rfl, by omega, ?_⟩)
                    · show (rest ++ [(⟨m.time, 1, st.seq, .sget x⟩ : Ev),
                          ⟨m.time + cfg.u st.idx / cfg.arr_rate, 1, st.seq + 1,
                           .atimeout⟩]).filter (fun e => e.res.isA) = _
                      rw [List.filter_append, hrestA]
                      rfl
                    · show st.putLog.length + (j + 1) = cfg.n_objects.toNat
                      omega
                  · refine Or.inr (Or.inr (Or.inl ⟨⟨m.time, 1, st.seq, .sget x⟩, x,
                      ?_, rfl, rfl, hsst, ?_⟩))
                    · show (rest ++ [(⟨m.time, 1, st.seq, .sget x⟩ : Ev),
                          ⟨m.time + cfg.u st.idx / cfg.arr_rate, 1, st.seq + 1,
                           .atimeout⟩]).filter (fun e => e.res.isS) = _
                      rw [List.filter_append, hSrest]
                      rfl
                    · show st.stats.obj_cnt + 1 = (st.getLog ++ [x]).length
                      rw [List.length_append, List.length_singleton]
                      omega
                · simp only [phi, phiA, phiS, hast]
                  omega
            case _ =>
              rw [hswc] at hsw
              simp at hsw
            case _ =>
              rw [hswc] at hsw
              simp at hsw
      case _ =>
        rw [hA, hconsA] at hpermA
        obtain ⟨hmev, hrestA⟩ := cons_perm_singleton hpermA
        rw [← hmev] at hevres
        simp [hres] at hevres
      case _ =>
        rw [hA, hconsA] at hpermA
        have := hpermA.length_eq
        simp at this
  | aend =>
      have hmA : (fun e => e.res.isA) m = true := by simp [hres, Resume.isA]
      have hconsA : (m :: rest).filter (fun e => e.res.isA)
          = m :: rest.filter (fun e => e.res.isA) := by simp [List.filter_cons, hmA]
      have hmS : (fun e => e.res.isS) m = false := by simp [hres, Resume.isS]
      have hconsS : (m :: rest).filter (fun e => e.res.isS)
          = rest.filter (fun e => e.res.isS) := by simp [List.filter_cons, hmS]
      have hSrest : rest.filter (fun e => e.res.isS) = sEvents st :=
        perm_eq_small (hconsS ▸ hpermS) (sEvents_small hinv.sph)
      rcases hinv.aph with ⟨ev, hA, hevres, hast, hputnil⟩ |
        ⟨ev, r, hA, hevres, hast, hr1, hrN⟩ | ⟨ev, r, hA, hevres, hast, hr1, hrN⟩ |
        ⟨ev, hA, hevres, hast, hPN⟩ | ⟨hA, hast, hPN⟩
      case _ =>
        rw [hA, hconsA] at hpermA
        obtain ⟨hmev, hrestA⟩ := cons_perm_singleton hpermA
        rw [← hmev] at hevres
        simp [hres] at hevres
      case _ =>
        rw [hA, hconsA] at hpermA
        obtain ⟨hmev, hrestA⟩ := cons_perm_singleton hpermA
        rw [← hmev] at hevres
        simp [hres] at hevres
      case _ =>
        rw [hA, hconsA] at hpermA
        obtain ⟨hmev, hrestA⟩ := cons_perm_singleton hpermA
        rw [← hmev] at hevres
        simp [hres] at hevres
      case _ =>
        rw [hA, hconsA] at hpermA
        obtain ⟨hmev, hrestA⟩ := cons_perm_singleton hpermA
        refine ⟨{ st with queue := rest, now := m.time,
                          dispatches := st.dispatches + 1 }, ?_, ?_, ?_⟩
        · rw [hstep, hres]
          simp [dispatch, arrival_process]
        · refine ⟨?_, ?_, ?_, hinv.fifo, hinv.itemsEq, ?_, ?_, hinv.sumNN, hinv.sumPos⟩
          · exact fun f hf => hrestT f hf
          · exact fun y hy => (hinv.putLe y hy).trans hnow
          · exact fun f hf y hfy => (hinv.sgetLe f (hrestsub f hf) y hfy).trans hnow
          · exact Or.inr (Or.inr (Or.inr (Or.inr ⟨hrestA, hast, hPN⟩)))
          · refine SPhase_congr hinv.sph hSrest rfl rfl rfl rfl
              (fun _ h => h.elim Or.inl (fun hr => by
                obtain ⟨r, hr⟩ := hr
                rw [hast] at hr
                simp at hr))
        · have haE : aEvents { st with queue := rest, now := m.time,
                                       dispatches := st.dispatches + 1 }
              = ([] : List Ev) := hrestA
          have h1 : phiA cfg { st with queue := rest, now := m.time,
                                       dispatches := st.dispatches + 1 } = 0 := by
            simp [phiA, hast, aEvents, hrestA]
          have h2 : phiA cfg st = 1 := by
            simp [phiA, hast, hA]
          have h3 : phiS cfg { st with queue := rest, now := m.time,
                                       dispatches := st.dispatches + 1 } = phiS cfg st := rfl
          simp only [phi, h1, h2, h3]
          omega
      case _ =>
        rw [hA, hconsA] at hpermA
        have := hpermA.length_eq
        simp at this
  | initS =>
      have hmS : (fun e => e.res.isS) m = true := by simp [hres, Resume.isS]
      have hconsS : (m :: rest).filter (fun e => e.res.isS)
          = m :: rest.filter (fun e => e.res.isS) := by simp [List.filter_cons, hmS]
      have hmA : (fun e => e.res.isA) m = false := by simp [hres, Resume.isA]
      have hconsA : (m :: rest).filter (fun e => e.res.isA)
          = rest.filter (fun e => e.res.isA) := by simp [List.filter_cons, hmA]
      have hArest : rest.filter (fun e => e.res.isA) = aEvents st :=
        perm_eq_small (hconsA ▸ hpermA) (aEvents_small hinv.aph)
      rcases hinv.sph with ⟨ev, hS1, hevres, hsw, hsst, hG, hC⟩ |
        ⟨hsw, hS1, hsst, hC, hID⟩ | ⟨ev, x', hS1, hevres, hsw, hsst, hC⟩ |
        ⟨ev, arr, hS1, hevres, hsw, hsst, harr, hC⟩
      case _ =>
        rw [hS1, hconsS] at hpermS
        obtain ⟨hmev, hrestS⟩ := cons_perm_singleton hpermS
        rcases hIt : st.items with _ | ⟨x, irest⟩
        · refine ⟨{ st with queue := rest, now := m.time,
                            dispatches := st.dispatches + 1,
                            sWaiting := true, sstate := .awaitGet }, ?_, ?_, ?_⟩
          · rw [hstep, hres]
            simp [dispatch, service_process, storeGet, hIt]
          · refine ⟨?_, ?_, ?_, hinv.fifo, hinv.itemsEq, ?_, ?_, hinv.sumNN, hinv.sumPos⟩
            · exact fun f hf => hrestT f hf
            · exact fun y hy => (hinv.putLe y hy).trans hnow
            · exact fun f hf y hfy => (hinv.sgetLe f (hrestsub f hf) y hfy).trans hnow
            · exact APhase_congr hinv.aph hArest rfl rfl
            · refine Or.inr (Or.inl ⟨rfl, hrestS, rfl, ?_, Or.inl hIt⟩)
              simp [hC, hG]
          · have hEA : aEvents { st with queue := rest, now := m.time,
                                         dispatches := st.dispatches + 1,
                                         sWaiting := true, sstate := SState.awaitGet }
                = aEvents st := hArest
            have h1 : phiA cfg { st with queue := rest, now := m.time,
                                         dispatches := st.dispatches + 1,
                                         sWaiting := true, sstate := SState.awaitGet }
                = phiA cfg st := by
              simp [phiA, hEA]
            have h2 : phiS cfg { st with queue := rest, now := m.time,
                                         dispatches := st.dispatches + 1,
                                         sWaiting := true, sstate := SState.awaitGet }
                = 2 * cfg.n_objects.toNat := by
              simp [phiS, hC]
            have h3 : phiS cfg st = 2 * cfg.n_objects.toNat + 1 := by
              simp [phiS, hsst]
            simp only [phi, h1, h2, h3]
            omega
        · refine ⟨{ st with queue := rest ++ [⟨m.time, 1, st.seq, .sget x⟩],
                            seq := st.seq + 1, now := m.time,
                            dispatches := st.dispatches + 1, items := irest,
                            sWaiting := false, sstate := .awaitGet,
                            getLog := st.getLog ++ [x] }, ?_, ?_, ?_⟩
          · rw [hstep, hres]
            simp [dispatch, service_process, storeGet, hIt, schedule]
          · refine ⟨?_, ?_, ?_, ?_, ?_, ?_, ?_, hinv.sumNN, hinv.sumPos⟩
            · intro f hf
              rcases List.mem_append.mp hf with hf | hf
              · exact hrestT f hf
              · rw [List.mem_singleton.mp hf]
            · exact fun y hy => (hinv.putLe y hy).trans hnow
            · intro f hf y hfy
              rcases List.mem_append.mp hf with hf | hf
              · exact (hinv.sgetLe f (hrestsub f hf) y hfy).trans hnow
              · rw [List.mem_singleton.mp hf] at hfy
                simp at hfy
                subst hfy
                exact (item_head_le_now hinv hIt).trans hnow
            · show st.getLog ++ [x] = st.putLog.take (st.getLog ++ [x]).length
              rw [List.length_append, List.length_singleton]
              exact (fifo_pop hinv hIt).1
            · show irest = st.putLog.drop (st.getLog ++ [x]).length
              rw [List.length_append, List.length_singleton]
              exact (fifo_pop hinv hIt).2
            · refine APhase_congr hinv.aph ?_ rfl rfl
              show (rest ++ [(⟨m.time, 1, st.seq, .sget x⟩ : Ev)]).filter
                  (fun e => e.res.isA) = aEvents st
              rw [filter_append_singleton_neg rfl, hArest]
            · refine Or.inr (Or.inr (Or.inl ⟨⟨m.time, 1, st.seq, .sget x⟩, x,
                ?_, rfl, rfl, rfl, ?_⟩))
              · show (rest ++ [(⟨m.time, 1, st.seq, .sget x⟩ : Ev)]).filter
                    (fun e => e.res.isS) = _
                rw [filter_append_singleton_pos rfl, hrestS]
                rfl
              · simp [hC, hG]
          · have hEA : aEvents { st with queue := rest ++ [⟨m.time, 1, st.seq, .sget x⟩],
                                         seq := st.seq + 1, now := m.time,
                                         dispatches := st.dispatches + 1, items := irest,
                                         sWaiting := false, sstate := SState.awaitGet,
                                         getLog := st.getLog ++ [x] } = aEvents st := by
              show (rest ++ [(⟨m.time, 1, st.seq, .sget x⟩ : Ev)]).filter
                  (fun e => e.res.isA) = aEvents st
              rw [filter_append_singleton_neg rfl, hArest]
            have h1 : phiA cfg { st with queue := rest ++ [⟨m.time, 1, st.seq, .sget x⟩],
                                         seq := st.seq + 1, now := m.time,
                                         dispatches := st.dispatches + 1, items := irest,
                                         sWaiting := false, sstate := SState.awaitGet,
                                         getLog := st.getLog ++ [x] } = phiA cfg st := by
              simp [phiA, hEA]
            have h2 : phiS cfg { st with queue := rest ++ [⟨m.time, 1, st.seq, .sget x⟩],
                                         seq := st.seq + 1, now := m.time,
                                         dispatches := st.dispatches + 1, items := irest,
                                         sWaiting := false, sstate := SState.awaitGet,
                                         getLog := st.getLog ++ [x] }
                = 2 * cfg.n_objects.toNat := by
              simp [phiS, hC]
            have h3 : phiS cfg st = 2 * cfg.n_objects.toNat + 1 := by
              simp [phiS, hsst]
            simp only [phi, h1, h2, h3]
            omega
      case _ =>
        rw [hS1, hconsS] at hpermS
        have := hpermS.length_eq
        simp at this
      case _ =>
        rw [hS1, hconsS] at hpermS
        obtain ⟨hmev, hrestS⟩ := cons_perm_singleton hpermS
        rw [← hmev] at hevres
        simp [hres] at hevres
      case _ =>
        rw [hS1, hconsS] at hpermS
        obtain ⟨hmev, hrestS⟩ := cons_perm_singleton hpermS
        rw [← hmev] at hevres
        simp [hres] at hevres
  | sget x =>
      have hmS : (fun e => e.res.isS) m = true := by simp [hres, Resume.isS]
      have hconsS : (m :: rest).filter (fun e => e.res.isS)
          = m :: rest.filter (fun e => e.res.isS) := by simp [List.filter_cons, hmS]
      have hmA : (fun e => e.res.isA) m = false := by simp [hres, Resume.isA]
      have hconsA : (m :: rest).filter (fun e => e.res.isA)
          = rest.filter (fun e => e.res.isA) := by simp [List.filter_cons, hmA]
      have hArest : rest.filter (fun e => e.res.isA) = aEvents st :=
        perm_eq_small (hconsA ▸ hpermA) (aEvents_small hinv.aph)
      rcases hinv.sph with ⟨ev, hS1, hevres, hsw, hsst, hG, hC⟩ |
        ⟨hsw, hS1, hsst, hC, hID⟩ | ⟨ev, x', hS1, hevres, hsw, hsst, hC⟩ |
        ⟨ev, arr, hS1, hevres, hsw, hsst, harr, hC⟩
      case _ =>
        rw [hS1, hconsS] at hpermS
        obtain ⟨hmev, hrestS⟩ := cons_perm_singleton hpermS
        rw [← hmev] at hevres
        simp [hres] at hevres
      case _ =>
        rw [hS1, hconsS] at hpermS
        have := hpermS.length_eq
        simp at this
      case _ =>
        rw [hS1, hconsS] at hpermS
        obtain ⟨hmev, hrestS⟩ := cons_perm_singleton hpermS
        have hxle : x ≤ m.time := (hinv.sgetLe m hmmem x hres).trans hnow
        have hdel : 0 < cfg.u st.idx / cfg.svc_rate := div_pos (hu _) hrs
        have hGP := getLen_le_putLen hinv
        have hPB := putLen_le_N hinv.aph
        refine ⟨{ st with queue := rest ++
                    [⟨m.time + cfg.u st.idx / cfg.svc_rate, 1, st.seq, .stimeout⟩],
                          seq := st.seq + 1, now := m.time,
                          dispatches := st.dispatches + 1, idx := st.idx + 1,
                          sstate := .awaitTimeout x }, ?_, ?_, ?_⟩
        · rw [hstep, hres]
          simp [dispatch, service_process, expovariate, env_timeout, schedule,
            ne_of_gt hrs, not_lt.mpr hdel.le]
        · refine ⟨?_, ?_, ?_, hinv.fifo, hinv.itemsEq, ?_, ?_, hinv.sumNN, hinv.sumPos⟩
          · intro f hf
            rcases List.mem_append.mp hf with hf | hf
            · exact hrestT f hf
            · rw [List.mem_singleton.mp hf]
              exact le_add_of_nonneg_right hdel.le
          · exact fun y hy => (hinv.putLe y hy).trans hnow
          · intro f hf y hfy
            rcases List.mem_append.mp hf with hf | hf
            · exact (hinv.sgetLe f (hrestsub f hf) y hfy).trans hnow
            · rw [List.mem_singleton.mp hf] at hfy
              simp at hfy
          · refine APhase_congr hinv.aph ?_ rfl rfl
            show (rest ++ [(⟨m.time + cfg.u st.idx / cfg.svc_rate, 1, st.seq,
                .stimeout⟩ : Ev)]).filter (fun e => e.res.isA) = aEvents st
            rw [filter_append_singleton_neg rfl, hArest]
          · refine Or.inr (Or.inr (Or.inr ⟨⟨m.time + cfg.u st.idx / cfg.svc_rate, 1,
              st.seq, .stimeout⟩, x, ?_, rfl, hsw, rfl, ?_, hC⟩))
            · show (rest ++ [(⟨m.time + cfg.u st.idx / cfg.svc_rate, 1, st.seq,
                  .stimeout⟩ : Ev)]).filter (fun e => e.res.isS) = _
              rw [filter_append_singleton_pos rfl, hrestS]
              rfl
            · show x < m.time + cfg.u st.idx / cfg.svc_rate
              calc x ≤ m.time := hxle
                _ < m.time + cfg.u st.idx / cfg.svc_rate := lt_add_of_pos_right _ hdel
        · have hEA : aEvents { st with queue := rest ++
                    [⟨m.time + cfg.u st.idx / cfg.svc_rate, 1, st.seq, .stimeout⟩],
                                       seq := st.seq + 1, now := m.time,
                                       dispatches := st.dispatches + 1, idx := st.idx + 1,
                                       sstate := SState.awaitTimeout x } = aEvents st := by
            show (rest ++ [(⟨m.time + cfg.u st.idx / cfg.svc_rate, 1, st.seq,
                .stimeout⟩ : Ev)]).filter (fun e => e.res.isA) = aEvents st
            rw [filter_append_singleton_neg rfl, hArest]
          have h1 : phiA cfg { st with queue := rest ++
                    [⟨m.time + cfg.u st.idx / cfg.svc_rate, 1, st.seq, .stimeout⟩],
                                       seq := st.seq + 1, now := m.time,
                                       dispatches := st.dispatches + 1, idx := st.idx + 1,
                                       sstate := SState.awaitTimeout x } = phiA cfg st := by
            simp [phiA, hEA]
          have h2 : phiS cfg { st with queue := rest ++
                    [⟨m.time + cfg.u st.idx / cfg.svc_rate, 1, st.seq, .stimeout⟩],
                                       seq := st.seq + 1, now := m.time,
                                       dispatches := st.dispatches + 1, idx := st.idx + 1,
                                       sstate := SState.awaitTimeout x }
              = 2 * (cfg.n_objects.toNat - st.stats.obj_cnt) - 1 := by
            simp [phiS]
          have h3 : phiS cfg st
              = 2 * (cfg.n_objects.toNat - st.stats.obj_cnt) := by
            simp [phiS, hsst]
          simp only [phi, h1, h2, h3]
          omega
      case _ =>
        rw [hS1, hconsS] at hpermS
        obtain ⟨hmev, hrestS⟩ := cons_perm_singleton hpermS
        rw [← hmev] at hevres
        simp [hres] at hevres
  | stimeout =>
      have hmS : (fun e => e.res.isS) m = true := by simp [hres, Resume.isS]
      have hconsS : (m :: rest).filter (fun e => e.res.isS)
          = m :: rest.filter (fun e => e.res.isS) := by simp [List.filter_cons, hmS]
      have hmA : (fun e => e.res.isA) m = false := by simp [hres, Resume.isA]
      have hconsA : (m :: rest).filter (fun e => e.res.isA)
          = rest.filter (fun e => e.res.isA) := by simp [List.filter_cons, hmA]
      have hArest : rest.filter (fun e => e.res.isA) = aEvents st :=
        perm_eq_small (hconsA ▸ hpermA) (aEvents_small hinv.aph)
      rcases hinv.sph with ⟨ev, hS1, hevres, hsw, hsst, hG, hC⟩ |
        ⟨hsw, hS1, hsst, hC, hID⟩ | ⟨ev, x', hS1, hevres, hsw, hsst, hC⟩ |
        ⟨ev, arr, hS1, hevres, hsw, hsst, harr, hC⟩
      case _ =>
        rw [hS1, hconsS] at hpermS
        obtain ⟨hmev, hrestS⟩ := cons_perm_singleton hpermS
        rw [← hmev] at hevres
        simp [hres] at hevres
      case _ =>
        rw [hS1, hconsS] at hpermS
        have := hpermS.length_eq
        simp at this
      case _ =>
        rw [hS1, hconsS] at hpermS
        obtain ⟨hmev, hrestS⟩ := cons_perm_singleton hpermS
        rw [← hmev] at hevres
        simp [hres] at hevres
      case _ =>
        rw [hS1, hconsS] at hpermS
        obtain ⟨hmev, hrestS⟩ := cons_perm_singleton hpermS
        rw [← hmev] at harr
        have hsoj : (0 : ℚ) < m.time - arr := sub_pos.mpr harr
        have hGP := getLen_le_putLen hinv
        have hPB := putLen_le_N hinv.aph
        rcases hIt : st.items with _ | ⟨x, irest⟩
        · refine ⟨{ st with queue := rest, now := m.time,
                            dispatches := st.dispatches + 1,
                            sWaiting := true, sstate := .awaitGet,
                            stats := ⟨st.stats.sum_tsys + (m.time - arr),
                                      st.stats.obj_cnt + 1⟩ }, ?_, ?_, ?_⟩
          · rw [hstep, hres]
            simp [dispatch, service_process, hsst, storeGet, hIt]
          · refine ⟨?_, ?_, ?_, hinv.fifo, hinv.itemsEq, ?_, ?_, ?_, ?_⟩
            · exact fun f hf => hrestT f hf
            · exact fun y hy => (hinv.putLe y hy).trans hnow
            · exact fun f hf y hfy => (hinv.sgetLe f (hrestsub f hf) y hfy).trans hnow
            · exact APhase_congr hinv.aph hArest rfl rfl
            · exact Or.inr (Or.inl ⟨rfl, hrestS, rfl, hC, Or.inl hIt⟩)
            · exact add_nonneg hinv.sumNN hsoj.le
            · exact fun _ => add_pos_of_nonneg_of_pos hinv.sumNN hsoj
          · have hEA : aEvents { st with queue := rest, now := m.time,
                                         dispatches := st.dispatches + 1,
                                         sWaiting := true, sstate := SState.awaitGet,
                                         stats := (⟨st.stats.sum_tsys + (m.time - arr),
                                                   st.stats.obj_cnt + 1⟩ : Stats) }
                = aEvents st := hArest
            have h1 : phiA cfg { st with queue := rest, now := m.time,
                                         dispatches := st.dispatches + 1,
                                         sWaiting := true, sstate := SState.awaitGet,
                                         stats := (⟨st.stats.sum_tsys + (m.time - arr),
                                                   st.stats.obj_cnt + 1⟩ : Stats) }
                = phiA cfg st := by
              simp [phiA, hEA]
            have h2 : phiS cfg { st with queue := rest, now := m.time,
                                         dispatches := st.dispatches + 1,
                                         sWaiting := true, sstate := SState.awaitGet,
                                         stats := (⟨st.stats.sum_tsys + (m.time - arr),
                                                   st.stats.obj_cnt + 1⟩ : Stats) }
                = 2 * (cfg.n_objects.toNat - (st.stats.obj_cnt + 1)) := by
              simp [phiS]
            have h3 : phiS cfg st
                = 2 * (cfg.n_objects.toNat - st.stats.obj_cnt) - 1 := by
              simp [phiS, hsst]
            simp only [phi, h1, h2, h3]
            omega
        · refine ⟨{ st with queue := rest ++ [⟨m.time, 1, st.seq, .sget x⟩],
                            seq := st.seq + 1, now := m.time,
                            dispatches := st.dispatches + 1, items := irest,
                            sWaiting := false, sstate := .awaitGet,
                            getLog := st.getLog ++ [x],
                            stats := ⟨st.stats.sum_tsys + (m.time - arr),
                                      st.stats.obj_cnt + 1⟩ }, ?_, ?_, ?_⟩
          · rw [hstep, hres]
            simp [dispatch, service_process, hsst, storeGet, hIt, schedule]
          · refine ⟨?_, ?_, ?_, ?_, ?_, ?_, ?_, ?_, ?_⟩
            · intro f hf
              rcases List.mem_append.mp hf with hf | hf
              · exact hrestT f hf
              · rw [List.mem_singleton.mp hf]
            · exact fun y hy => (hinv.putLe y hy).trans hnow
            · intro f hf y hfy
              rcases List.mem_append.mp hf with hf | hf
              · exact (hinv.sgetLe f (hrestsub f hf) y hfy).trans hnow
              · rw [List.mem_singleton.mp hf] at hfy
                simp at hfy
                subst hfy
                exact (item_head_le_now hinv hIt).trans hnow
            · show st.getLog ++ [x] = st.putLog.take (st.getLog ++ [x]).length
              rw [List.length_append, List.length_singleton]
              exact (fifo_pop hinv hIt).1
            · show irest = st.putLog.drop (st.getLog ++ [x]).length
              rw [List.length_append, List.length_singleton]
              exact (fifo_pop hinv hIt).2
            · refine APhase_congr hinv.aph ?_ rfl rfl
              show (rest ++ [(⟨m.time, 1, st.seq, .sget x⟩ : Ev)]).filter
                  (fun e => e.res.isA) = aEvents st
              rw [filter_append_singleton_neg rfl, hArest]
            · refine Or.inr (Or.inr (Or.inl ⟨⟨m.time, 1, st.seq, .sget x⟩, x,
                ?_, rfl, rfl, rfl, ?_⟩))
              · show (rest ++ [(⟨m.time, 1, st.seq, .sget x⟩ : Ev)]).filter
                    (fun e => e.res.isS) = _
                rw [filter_append_singleton_pos rfl, hrestS]
                rfl
              · show st.stats.obj_cnt + 1 + 1 = (st.getLog ++ [x]).length
                rw [List.length_append, List.length_singleton]
                omega
            · exact add_nonneg hinv.sumNN hsoj.le
            · exact fun _ => add_pos_of_nonneg_of_pos hinv.sumNN hsoj
          · have hEA : aEvents { st with queue := rest ++ [⟨m.time, 1, st.seq, .sget x⟩],
                                         seq := st.seq + 1, now := m.time,
                                         dispatches := st.dispatches + 1, items := irest,
                                         sWaiting := false, sstate := SState.awaitGet,
                                         getLog := st.getLog ++ [x],
                                         stats := (⟨st.stats.sum_tsys + (m.time - arr),
                                                   st.stats.obj_cnt + 1⟩ : Stats) }
                = aEvents st := by
              show (rest ++ [(⟨m.time, 1, st.seq, .sget x⟩ : Ev)]).filter
                  (fun e => e.res.isA) = aEvents st
              rw [filter_append_singleton_neg rfl, hArest]
            have h1 : phiA cfg { st with queue := rest ++ [⟨m.time, 1, st.seq, .sget x⟩],
                                         seq := st.seq + 1, now := m.time,
                                         dispatches := st.dispatches + 1, items := irest,
                                         sWaiting := false, sstate := SState.awaitGet,
                                         getLog := st.getLog ++ [x],
                                         stats := (⟨st.stats.sum_tsys + (m.time - arr),
                                                   st.stats.obj_cnt + 1⟩ : Stats) }
                = phiA cfg st := by
              simp [phiA, hEA]
            have h2 : phiS cfg { st with queue := rest ++ [⟨m.time, 1, st.seq, .sget x⟩],
                                         seq := st.seq + 1, now := m.time,
                                         dispatches := st.dispatches + 1, items := irest,
                                         sWaiting := false, sstate := SState.awaitGet,
                                         getLog := st.getLog ++ [x],
                                         stats := (⟨st.stats.sum_tsys + (m.time - arr),
                                                   st.stats.obj_cnt + 1⟩ : Stats) }
                = 2 * (cfg.n_objects.toNat - (st.stats.obj_cnt + 1)) := by
              simp [phiS]
            have h3 : phiS cfg st
                = 2 * (cfg.n_objects.toNat - st.stats.obj_cnt) - 1 := by
              simp [phiS, hsst]
            simp only [phi, h1, h2, h3]
            omega

end MM1_multi

namespace MM1_multi

/-- Running with enough fuel from any state satisfying the invariant drains
the event queue: the run succeeds, the invariant still holds at the final
state, and no event remains pending. -/
theorem run_inv (cfg : Config) (hcfg : GoodCfg cfg) :
    ∀ (fuel : ℕ) (st : SimState), Inv cfg st → phi cfg st < fuel →
      ∃ st', runWith dispatch cfg fuel st = .ok st' ∧ Inv cfg st' ∧
        st'.queue = [] := by
  intro fuel
  induction fuel with
  | zero =>
      intro st _ hlt
      omega
  | succ f ih =>
      intro st hinv hlt
      cases hq : st.queue with
      | nil =>
          refine ⟨st, ?_, hinv, hq⟩
          have hs : stepWith dispatch cfg st = none := by
            unfold stepWith
            rw [hq]
          simp only [runWith, hs]
      | cons e0 l0 =>
          obtain ⟨st', hstep, hinv', hphi⟩ := step_inv cfg hcfg st hinv e0 l0 hq
          obtain ⟨st'', h1, h2, h3⟩ := ih st' hinv' (by omega)
          refine ⟨st'', ?_, h2, h3⟩
          simp only [runWith, hstep]
          exact h1

/-- The initial state of a trial satisfies the reachability invariant. -/
theorem initState_inv (cfg : Config) : Inv cfg initState := by
  have hql : initState.queue = [⟨0, 0, 0, .initA⟩, ⟨0, 0, 1, .initS⟩] := rfl
  constructor
  · intro ev hev
    rw [hql] at hev
    simp only [List.mem_cons, List.not_mem_nil, or_false] at hev
    rcases hev with rfl | rfl <;> exact le_refl 0
  · intro x hx
    simp [initState] at hx
  · intro ev hev x hres
    rw [hql] at hev
    simp only [List.mem_cons, List.not_mem_nil, or_false] at hev
    rcases hev with rfl | rfl <;> simp at hres
  · rfl
  · rfl
  · exact Or.inl ⟨⟨0, 0, 0, .initA⟩, rfl, rfl, rfl, rfl⟩
  · exact Or.inl ⟨⟨0, 0, 1, .initS⟩, rfl, rfl, rfl, rfl, rfl, rfl⟩
  · exact le_refl 0
  · intro h
    exact absurd h (Nat.lt_irrefl 0)

/-- The potential of the initial state: one less than the total number of
scheduler dispatches of a trial. -/
theorem phi_initState (cfg : Config) :
    phi cfg initState = 4 * cfg.n_objects.toNat + 3 := by
  show 2 * cfg.n_objects.toNat + 2 + (2 * cfg.n_objects.toNat + 1)
      = 4 * cfg.n_objects.toNat + 3
  omega

/-- Under a good configuration the full trial run reaches quiescence: it
returns a final state that satisfies the invariant and has no pending
event. -/
theorem trial_quiescent (args : ℤ × ℚ × ℚ) (u : ℕ → ℚ)
    (hcfg : GoodCfg ⟨args.1, args.2.1, args.2.2, u⟩) :
    ∃ st, trial_state args u = .ok st ∧
      Inv ⟨args.1, args.2.1, args.2.2, u⟩ st ∧ st.queue = [] := by
  refine run_inv ⟨args.1, args.2.1, args.2.2, u⟩ hcfg (4 * args.1.toNat + 4)
    initState (initState_inv _) ?_
  have hp : phi ⟨args.1, args.2.1, args.2.2, u⟩ initState
      = 4 * args.1.toNat + 3 := phi_initState _
  omega

/-- A quiescent invariant state is fully drained: the arrival process has
exited after exactly N puts, every enqueued record has been dequeued in
order, the store is empty, and the completed-customer count is N. -/
theorem quiescent_final {cfg : Config} {st : SimState} (hinv : Inv cfg st)
    (hq : st.queue = []) :
    st.astate = .done ∧ st.putLog.length = cfg.n_objects.toNat ∧
    st.getLog = st.putLog ∧ st.items = [] ∧
    st.stats.obj_cnt = cfg.n_objects.toNat := by
  have haE : aEvents st = [] := by simp [aEvents, hq]
  have hsE : sEvents st = [] := by simp [sEvents, hq]
  obtain ⟨hA, hP⟩ : st.astate = .done ∧ st.putLog.length = cfg.n_objects.toNat := by
    rcases hinv.aph with ⟨ev, h1, -, -, -⟩ | ⟨ev, r, h1, -, -, -, -⟩ |
      ⟨ev, r, h1, -, -, -, -⟩ | ⟨ev, h1, -, -, -⟩ | ⟨-, hA, hP⟩
    · rw [haE] at h1; exact absurd h1 (by simp)
    · rw [haE] at h1; exact absurd h1 (by simp)
    · rw [haE] at h1; exact absurd h1 (by simp)
    · rw [haE] at h1; exact absurd h1 (by simp)
    · exact ⟨hA, hP⟩
  obtain ⟨hC, hID⟩ : st.stats.obj_cnt = st.getLog.length ∧
      (st.items = [] ∨ ∃ r, st.astate = .awaitPut r) := by
    rcases hinv.sph with ⟨ev, h1, -, -, -, -, -⟩ | ⟨-, -, -, hC, hID⟩ |
      ⟨ev, x, h1, -, -, -, -⟩ | ⟨ev, arr, h1, -, -, -, -, -⟩
    · rw [hsE] at h1; exact absurd h1 (by simp)
    · exact ⟨hC, hID⟩
    · rw [hsE] at h1; exact absurd h1 (by simp)
    · rw [hsE] at h1; exact absurd h1 (by simp)
  have hitems : st.items = [] := by
    rcases hID with h | ⟨r, h⟩
    · exact h
    · rw [hA] at h
      exact absurd h (by simp)
  have hle := getLen_le_putLen hinv
  have hdrop := hinv.itemsEq
  rw [hitems] at hdrop
  have hlen := congrArg List.length hdrop
  simp only [List.length_nil, List.length_drop] at hlen
  have heq : st.getLog.length = st.putLog.length := by omega
  have hgetput : st.getLog = st.putLog := by
    rw [hinv.fifo, heq, List.take_length]
  refine ⟨hA, hP, hgetput, hitems, ?_⟩
  rw [hC, heq, hP]

end MM1_multi

/-- Claim C6: for every stable configuration mu > lambda > 0 with N >= 1 (and
positive exponential samples, an almost-sure event), the trial runs to
completion, the final statistics count exactly N completed customers (every
one of the N arrivals is eventually serviced), and the accumulated sum of
sojourn times is strictly positive. -/
theorem C6_count_N_sum_pos (args : ℤ × ℚ × ℚ) (u : ℕ → ℚ)
    (hla : 0 < args.2.1) (hls : args.2.1 < args.2.2) (hN : 1 ≤ args.1)
    (hu : ∀ k, 0 < u k) :
    MM1_multi.trial_state args u
        = .ok (getOk (MM1_multi.trial_state args u)) ∧
    (getOk (MM1_multi.trial_state args u)).stats.obj_cnt = args.1.toNat ∧
    0 < (getOk (MM1_multi.trial_state args u)).stats.sum_tsys := by
  obtain ⟨st, h1, hinv, hq⟩ :=
    MM1_multi.trial_quiescent args u ⟨hla, lt_trans hla hls, hu⟩
  obtain ⟨hA, hP, hGP, hIt, hC⟩ := MM1_multi.quiescent_final hinv hq
  have hC' : st.stats.obj_cnt = args.1.toNat := hC
  rw [h1]
  refine ⟨rfl, hC', ?_⟩
  exact hinv.sumPos (by omega)

/-- Witness for C6: a one-customer stable trial (N = 1, lambda = 1, mu = 2,
all raw samples 1) completes with count 1 and positive sojourn sum. -/
theorem C6_witness :
    MM1_multi.trial_state ((1 : ℤ), (1 : ℚ), (2 : ℚ)) (fun _ => 1)
        = .ok (getOk (MM1_multi.trial_state ((1 : ℤ), (1 : ℚ), (2 : ℚ)) (fun _ => 1))) ∧
    (getOk (MM1_multi.trial_state ((1 : ℤ), (1 : ℚ), (2 : ℚ)) (fun _ => 1))).stats.obj_cnt
        = ((1 : ℤ)).toNat ∧
    0 < (getOk (MM1_multi.trial_state ((1 : ℤ), (1 : ℚ), (2 : ℚ)) (fun _ => 1))).stats.sum_tsys :=
  C6_count_N_sum_pos ((1 : ℤ), (1 : ℚ), (2 : ℚ)) (fun _ => 1) (by decide) (by decide)
    (by decide) (fun _ => show (0 : ℚ) < 1 by decide)

/-- Claim C7: for every target count N and positive rates (and positive raw
samples), the arrival process performs exactly N put operations — the final
enqueue log holds exactly N arrival records — and then exits permanently
(its generator is retired in the final state), so exactly N arrival records
are ever enqueued. -/
theorem C7_exactly_N_arrivals (args : ℤ × ℚ × ℚ) (u : ℕ → ℚ)
    (hla : 0 < args.2.1) (hls : 0 < args.2.2) (hu : ∀ k, 0 < u k) :
    MM1_multi.trial_state args u
        = .ok (getOk (MM1_multi.trial_state args u)) ∧
    (getOk (MM1_multi.trial_state args u)).putLog.length = args.1.toNat ∧
    (getOk (MM1_multi.trial_state args u)).astate = AState.done := by
  obtain ⟨st, h1, hinv, hq⟩ :=
    MM1_multi.trial_quiescent args u ⟨hla, hls, hu⟩
  obtain ⟨hA, hP, hGP, hIt, hC⟩ := MM1_multi.quiescent_final hinv hq
  have hP' : st.putLog.length = args.1.toNat := hP
  rw [h1]
  exact ⟨rfl, hP', hA⟩

/-- Witness for C7: a two-customer trial (N = 2, lambda = mu = 1, all raw
samples 1) enqueues exactly 2 arrival records and retires the arrival
process. -/
theorem C7_witness :
    MM1_multi.trial_state ((2 : ℤ), (1 : ℚ), (1 : ℚ)) (fun _ => 1)
        = .ok (getOk (MM1_multi.trial_state ((2 : ℤ), (1 : ℚ), (1 : ℚ)) (fun _ => 1))) ∧
    (getOk (MM1_multi.trial_state ((2 : ℤ), (1 : ℚ), (1 : ℚ)) (fun _ => 1))).putLog.length
        = ((2 : ℤ)).toNat ∧
    (getOk (MM1_multi.trial_state ((2 : ℤ), (1 : ℚ), (1 : ℚ)) (fun _ => 1))).astate
        = AState.done :=
  C7_exactly_N_arrivals ((2 : ℤ), (1 : ℚ), (1 : ℚ)) (fun _ => 1) (by decide) (by decide)
    (fun _ => show (0 : ℚ) < 1 by decide)

/-- Claim C8: FIFO order is preserved end-to-end — in a completed trial the
i-th record dequeued equals the i-th record enqueued, for every index — and
a get on an empty store suspends the calling process (it is registered as
the waiter and no resumption is scheduled) until a record becomes available,
at which point the trigger-get callback resumes it with the oldest record. -/
theorem C8_fifo_and_empty_get_suspends (args : ℤ × ℚ × ℚ) (u : ℕ → ℚ)
    (hla : 0 < args.2.1) (hls : 0 < args.2.2) (hu : ∀ k, 0 < u k)
    (i : ℕ) (st st2 : SimState) (hempty : st.items = [])
    (hw : st2.sWaiting = true) (x : ℚ) (rest : List ℚ)
    (hit : st2.items = x :: rest) :
    (getOk (MM1_multi.trial_state args u)).getLog[i]? =
      (getOk (MM1_multi.trial_state args u)).putLog[i]? ∧
    storeGet st = { st with sWaiting := true, sstate := SState.awaitGet } ∧
    triggerGet st2 = schedule { st2 with items := rest, sWaiting := false,
                                         getLog := st2.getLog ++ [x] } st2.now 1 (.sget x) := by
  obtain ⟨stf, h1, hinv, hq⟩ :=
    MM1_multi.trial_quiescent args u ⟨hla, hls, hu⟩
  obtain ⟨hA, hP, hGP, hIt, hC⟩ := MM1_multi.quiescent_final hinv hq
  refine ⟨?_, ?_, ?_⟩
  · rw [h1]
    show stf.getLog[i]? = stf.putLog[i]?
    rw [hGP]
  · unfold storeGet
    rw [hempty]
  · unfold triggerGet
    rw [hw, hit]
    rfl

/-- Witness for C8: in a completed one-customer trial the first record
dequeued is the first enqueued; a get on the initial (empty) store suspends
the consumer; a put to a waiting consumer resumes it with the stored
record. -/
theorem C8_witness :
    (getOk (MM1_multi.trial_state ((1 : ℤ), (1 : ℚ), (2 : ℚ)) (fun _ => 1))).getLog[0]? =
      (getOk (MM1_multi.trial_state ((1 : ℤ), (1 : ℚ), (2 : ℚ)) (fun _ => 1))).putLog[0]? ∧
    storeGet initState = { initState with sWaiting := true, sstate := SState.awaitGet } ∧
    triggerGet { initState with sWaiting := true, items := [(5 : ℚ)] } =
      schedule { { initState with sWaiting := true, items := [(5 : ℚ)] } with
                 items := ([] : List ℚ), sWaiting := false,
                 getLog := [(5 : ℚ)] }
        { initState with sWaiting := true, items := [(5 : ℚ)] }.now 1 (.sget 5) :=
  C8_fifo_and_empty_get_suspends ((1 : ℤ), (1 : ℚ), (2 : ℚ)) (fun _ => 1) (by decide)
    (by decide) (fun _ => show (0 : ℚ) < 1 by decide) 0 initState
    { initState with sWaiting := true, items := [(5 : ℚ)] } rfl rfl 5 [] rfl
